import Mathlib

/-!
Verification of the kudu codegen CodeCache facade (src/src/kudu/codegen/code_cache.cc)
and the log-dump tool's print-type parsing (src/src/kudu/consensus/log-dump.cc).

The facade sits on top of the generic LRU cache engine (util/cache.h), whose
implementation is not part of this repository excerpt; the engine is therefore
modelled from the specification (spec.md §4.1): sharding is collapsed to the
single shard the facade's keys land in, the LRU list and the in-use list are
represented as one entry list ordered by recency (an entry is on the LRU list
iff its refcount is 1 and it is resident; on the in-use list iff its refcount
exceeds 1 — exactly the spec's membership criteria, so the two lists are the
refcount-determined partition of this single list, with LRU order given by
list order, head least recently used).

Artifact (JITWrapper) reference counts, client-held references, destroyed
artifacts and deleter invocations are tracked as explicit ghost state so that
the ownership claims can be stated and proved.
-/

namespace Kudu

/-! ## Log-dump tool: ParsePrintType (src/src/kudu/consensus/log-dump.cc) -/

/-- Print modes of the log-dump tool, from the PrintEntryType enum in
src/src/kudu/consensus/log-dump.cc. -/
inductive PrintEntryType where
  | DONT_PRINT
  | PRINT_PB
  | PRINT_DECODED
  | PRINT_ID
deriving DecidableEq, Repr

/-- Leading alphanumeric token of a string, lowercased, after skipping
leading whitespace. -/
def leadingToken (s : String) : String :=
  String.mk (((s.data.dropWhile Char.isWhitespace).takeWhile Char.isAlphanum).map Char.toLower)

/-- Modelled from the spec: gutil's ParseLeadingBoolValue is not part of this
repository excerpt. The --print_entries flag documentation in log-dump.cc
lists the recognized boolean spellings (false|0|no for false, true|1|yes for
true). We model the classification of the leading token accordingly: the
leading alphanumeric token (case-insensitive) is classified as false, true,
or unrecognized. -/
def boolTokenOf (s : String) : Option Bool :=
  if leadingToken s ∈ ["false", "0", "no"] then some false
  else if leadingToken s ∈ ["true", "1", "yes"] then some true
  else none

/-- Modelled from the spec: ParseLeadingBoolValue(str, deflt) returns the
boolean the leading token spells, or the default when the token is not a
recognized boolean spelling. -/
def ParseLeadingBoolValue (s : String) (deflt : Bool) : Bool :=
  (boolTokenOf s).getD deflt

/-- ParsePrintType from src/src/kudu/consensus/log-dump.cc, as a function of
the --print_entries flag value. The LOG(FATAL) branch aborts the process and
is modelled as `none`. -/
def ParsePrintType (print_entries : String) : Option PrintEntryType :=
  if ParseLeadingBoolValue print_entries true = false then
    some PrintEntryType.DONT_PRINT
  else if ParseLeadingBoolValue print_entries false = true ∨ print_entries = "decoded" then
    some PrintEntryType.PRINT_DECODED
  else if print_entries = "pb" then
    some PrintEntryType.PRINT_PB
  else if print_entries = "id" then
    some PrintEntryType.PRINT_ID
  else
    none

/-! ## Cache engine model (spec.md §4.1, instantiated with the facade's deleter) -/

/-- Status results of CodeCache::AddEntry: OK, or the EncodingError produced
when JITWrapper::EncodeOwnKey fails. -/
inductive Status where
  | ok
  | encodingError
deriving DecidableEq, Repr

/-- A cache engine entry (spec.md §3): key, opaque value (the JITWrapper,
identified here by an artifact id), charge, reference count and resident
flag. `eid` is the entry's identity (allocation order), used to record
deleter invocations. -/
structure CacheEntry where
  eid : Nat
  key : Nat
  value : Nat
  charge : Nat
  refcount : Nat
  resident : Bool
deriving DecidableEq, Repr

/-- The whole-system state: the engine's entry list (ordered by recency,
head least-recently-used among the refcount-1 resident entries), plus ghost
state for the artifact ownership model: per-artifact reference counts,
the portion of each count held by clients (callers), destroyed artifacts,
and a log of deleter invocations recording (entry id, resident flag at
invocation, refcount at invocation). `metrics` records the (hint, hit)
instrumentation of engine lookups. -/
structure World where
  capacity : Nat
  entries : List CacheEntry
  nextId : Nat
  metrics : List (Bool × Bool)
  artRef : Nat → Nat
  clientRef : Nat → Nat
  nextArt : Nat
  destroyed : List Nat
  deleterLog : List (Nat × Bool × Nat)

/-- Number of live cache entries whose stored value is artifact `a`. -/
def liveCount (w : World) (a : Nat) : Nat :=
  (w.entries.filter (fun e => e.value == a)).length

/-- JITWrapper::AddRef on artifact `a` (the cache-side reference bump in
CodeCache::AddEntry). -/
def artAddRef (w : World) (a : Nat) : World :=
  { w with artRef := Function.update w.artRef a (w.artRef a + 1) }

/-- JITWrapper::Release on artifact `a`: decrement the shared-ownership
count; the artifact is destroyed exactly when the count reaches zero. -/
def artRelease (w : World) (a : Nat) : World :=
  if w.artRef a = 1 then
    { w with artRef := Function.update w.artRef a 0,
             destroyed := w.destroyed ++ [a] }
  else
    { w with artRef := Function.update w.artRef a (w.artRef a - 1) }

/-- A client acquires one owning reference to artifact `a` (a scoped_refptr
copy held outside the cache). -/
def clientAcquire (w : World) (a : Nat) : World :=
  { w with artRef := Function.update w.artRef a (w.artRef a + 1),
           clientRef := Function.update w.clientRef a (w.clientRef a + 1) }

/-- A client drops one owning reference to artifact `a` it holds. -/
def clientDrop (w : World) (a : Nat) : World :=
  if w.clientRef a > 0 then
    artRelease { w with clientRef := Function.update w.clientRef a (w.clientRef a - 1) } a
  else
    w

/-- CodeCacheDeleter (src/src/kudu/codegen/code_cache.cc): the engine's
deleter for a dying entry releases the facade's shared ownership of the
stored JITWrapper. The entry is removed and the invocation is logged with
the entry's resident flag and refcount at invocation time. -/
def fireDeleter (w : World) (e : CacheEntry) : World :=
  let w1 := artRelease w e.value
  { w1 with entries := w1.entries.filter (fun x => x.eid != e.eid),
            deleterLog := w1.deleterLog ++ [(e.eid, e.resident, e.refcount)] }

/-- Drop one engine-level reference to entry `eid` (spec.md §4.1 Release):
if the count reaches 0 the deleter is invoked and the entry freed (the spec
notes reaching 0 implies the entry is non-resident); if the entry is
resident and the count returns to the cache's own single reference, the
entry moves to the most-recently-used end of the LRU list. -/
def unref (w : World) (eid : Nat) : World :=
  match w.entries.find? (fun e => e.eid == eid) with
  | none => w
  | some e =>
    if e.refcount ≤ 1 then
      fireDeleter w e
    else
      let e' : CacheEntry := { e with refcount := e.refcount - 1 }
      if e'.resident ∧ e'.refcount = 1 then
        { w with entries := w.entries.filter (fun x => x.eid != eid) ++ [e'] }
      else
        { w with entries := w.entries.map (fun x => if x.eid == eid then e' else x) }

/-- Evict the entry `eid` (spec.md §4.1): clear its resident flag, remove it
from its list, and drop the cache-held reference. -/
def evictOne (w : World) (eid : Nat) : World :=
  let w1 := { w with
    entries := w.entries.map (fun x => if x.eid == eid then { x with resident := false } else x) }
  unref w1 eid

/-- Total charge of resident entries (spec.md §3 invariant 4's occupancy). -/
def occupancy (w : World) : Nat :=
  ((w.entries.filter (fun e => e.resident)).map (fun e => e.charge)).sum

/-- Capacity-pressure eviction loop of Insert (spec.md §4.1): while
occupancy exceeds capacity, evict the least-recently-used unpinned entry
(resident, refcount 1); stop when occupancy fits or no evictable entry
remains. The fuel argument bounds the iteration count; the number of
entries suffices since every iteration frees one entry. -/
def evictLoop : Nat → World → World
  | 0, w => w
  | fuel + 1, w =>
    if occupancy w ≤ w.capacity then w
    else
      match w.entries.find? (fun e => e.resident && e.refcount == 1) with
      | none => w
      | some e => evictLoop fuel (evictOne w e.eid)

/-- Engine Insert (spec.md §4.1): evict any resident entry with the same
key, create the new entry with refcount 2 (one cache-held, one returned as
the Handle) at the most-recently-used position, then run capacity-pressure
eviction. Returns the Handle (the new entry's id). -/
def engineInsert (w : World) (k : Nat) (v : Nat) (charge : Nat) : Nat × World :=
  let w1 :=
    match w.entries.find? (fun e => e.resident && e.key == k) with
    | some old => evictOne w old.eid
    | none => w
  let eid := w1.nextId
  let e : CacheEntry :=
    { eid := eid, key := k, value := v, charge := charge, refcount := 2, resident := true }
  let ents := w1.entries ++ [e]
  let w2 := { w1 with entries := ents, nextId := eid + 1 }
  (eid, evictLoop ents.length w2)

/-- Engine Lookup (spec.md §4.1): find the resident entry for the key; on a
hit bump its refcount (moving it from the LRU list to the in-use list) and
return its Handle; on a miss return not-found. The hint is recorded in the
hit/miss instrumentation only. -/
def engineLookup (w : World) (k : Nat) (hint : Bool) : Option Nat × World :=
  match w.entries.find? (fun e => e.resident && e.key == k) with
  | none => (none, { w with metrics := w.metrics ++ [(hint, false)] })
  | some e =>
    (some e.eid,
     { w with metrics := w.metrics ++ [(hint, true)],
              entries := w.entries.map (fun x =>
                if x.eid == e.eid then { x with refcount := x.refcount + 1 } else x) })

/-- Engine Value (spec.md §4.1): the stored value of a live Handle. -/
def engineValue (w : World) (eid : Nat) : Option Nat :=
  (w.entries.find? (fun e => e.eid == eid)).map (fun e => e.value)

/-! ## CodeCache facade (src/src/kudu/codegen/code_cache.cc) -/

/-- CodeCache::AddEntry from src/src/kudu/codegen/code_cache.cc. The
artifact is given by its id `aid` and the result `enc` of its
EncodeOwnKey (`none` models an encoding failure, surfaced by
RETURN_NOT_OK). On success: AddRef the artifact, Insert it with charge 1
and CodeCacheDeleter, and Release the returned handle. -/
def AddEntry (w : World) (aid : Nat) (enc : Option Nat) : Status × World :=
  match enc with
  | none => (Status.encodingError, w)
  | some k =>
    let w1 := artAddRef w aid
    let hw := engineInsert w1 k aid 1
    (Status.ok, unref hw.2 hw.1)

/-- CodeCache::Lookup from src/src/kudu/codegen/code_cache.cc: engine
Lookup with the EXPECT_IN_CACHE hint; on a miss return the null
scoped_refptr; on a hit copy the stored JITWrapper pointer into a caller
owned scoped_refptr (one client-held reference) and release the handle. -/
def cacheLookup (w : World) (k : Nat) : Option Nat × World :=
  match engineLookup w k true with
  | (none, w1) => (none, w1)
  | (some h, w1) =>
    match engineValue w1 h with
    | none => (none, w1)
    | some aid =>
      let w2 := clientAcquire w1 aid
      (some aid, unref w2 h)

/-! ## Client-level operations and traces -/

/-- Operations a client of the facade can perform: construct a fresh
artifact (holding its initial reference), call AddEntry on an artifact it
holds (with the given EncodeOwnKey result), call Lookup keeping the
returned reference, or drop one held reference. -/
inductive Op where
  | create
  | add (enc : Option Nat) (aid : Nat)
  | look (k : Nat)
  | drop (aid : Nat)
deriving DecidableEq, Repr

/-- One client operation on the world. AddEntry requires the caller to
hold a reference to the artifact it passes (it receives a scoped_refptr);
an `add` naming an artifact the client does not hold is a no-op, as is a
`drop` of a reference not held. -/
def stepOp (w : World) : Op → World
  | Op.create =>
    { clientAcquire w w.nextArt with nextArt := w.nextArt + 1 }
  | Op.add enc aid => if w.clientRef aid > 0 then (AddEntry w aid enc).2 else w
  | Op.look k => (cacheLookup w k).2
  | Op.drop aid => clientDrop w aid

/-- The initial world: an empty code cache of the given capacity, no
artifacts. -/
def initWorld (cap : Nat) : World :=
  { capacity := cap, entries := [], nextId := 0, metrics := [],
    artRef := fun _ => 0, clientRef := fun _ => 0, nextArt := 0,
    destroyed := [], deleterLog := [] }

/-- Run a trace of client operations. -/
def runOps (w : World) (ops : List Op) : World :=
  ops.foldl stepOp w

/-! ## List helpers about entry lists -/

/-- Finding by entry id commutes with a map that rewrites only that id and
preserves ids. -/
theorem find?_map_eid (l : List CacheEntry) (n : Nat) (f : CacheEntry → CacheEntry)
    (hf : ∀ x, (f x).eid = x.eid) :
    (l.map (fun x => if x.eid == n then f x else x)).find? (fun x => x.eid == n)
      = (l.find? (fun x => x.eid == n)).map f := by
  induction l with
  | nil => rfl
  | cons y ys ih =>
    by_cases h : y.eid = n
    · simp [List.find?_cons, h, hf]
    · simp only [List.map_cons]
      rw [if_neg (by simp [h])]
      rw [List.find?_cons_of_neg _ (by simp [h]), List.find?_cons_of_neg _ (by simp [h])]
      exact ih

/-- Filtering away an entry id commutes with a map that rewrites only that
id and preserves ids. -/
theorem filter_ne_map_eid (l : List CacheEntry) (n : Nat) (f : CacheEntry → CacheEntry)
    (hf : ∀ x, (f x).eid = x.eid) :
    (l.map (fun x => if x.eid == n then f x else x)).filter (fun x => x.eid != n)
      = l.filter (fun x => x.eid != n) := by
  induction l with
  | nil => rfl
  | cons y ys ih =>
    by_cases h : y.eid = n
    · simp only [List.map_cons]
      rw [if_pos (by simp [h])]
      rw [List.filter_cons_of_neg (by simp [hf, h]), List.filter_cons_of_neg (by simp [h])]
      exact ih
    · simp only [List.map_cons]
      rw [if_neg (by simp [h])]
      rw [List.filter_cons_of_pos (by simp [h]), List.filter_cons_of_pos (by simp [h])]
      rw [ih]

/-- Mapping a function that rewrites one id and preserves ids leaves the id
list unchanged. -/
theorem map_eid_map_update (l : List CacheEntry) (n : Nat) (f : CacheEntry → CacheEntry)
    (hf : ∀ x, (f x).eid = x.eid) :
    (l.map (fun x => if x.eid == n then f x else x)).map (fun e => e.eid)
      = l.map (fun e => e.eid) := by
  induction l with
  | nil => rfl
  | cons y ys ih =>
    by_cases h : y.eid = n <;>
      simp_all [List.map_cons]

/-- With no duplicate entry ids, finding a member entry by its id returns
that entry. -/
theorem find?_eid_of_mem (l : List CacheEntry) (e : CacheEntry)
    (hmem : e ∈ l) (hnd : (l.map (fun x => x.eid)).Nodup) :
    l.find? (fun x => x.eid == e.eid) = some e := by
  induction l with
  | nil => cases hmem
  | cons y ys ih =>
    rcases List.mem_cons.mp hmem with rfl | hmem'
    · exact List.find?_cons_of_pos _ (by simp)
    · have hy : y.eid ≠ e.eid := by
        intro hcontra
        have : e.eid ∈ ys.map (fun x => x.eid) := List.mem_map_of_mem _ hmem'
        simp only [List.map_cons, List.nodup_cons] at hnd
        exact hnd.1 (hcontra ▸ this)
      rw [List.find?_cons_of_neg _ (by simpa using hy)]
      exact ih hmem' (by simp only [List.map_cons, List.nodup_cons] at hnd; exact hnd.2)

/-- Removing one member entry (by id, ids nodup) splits the count of
entries storing a given artifact. -/
theorem liveCount_split (l : List CacheEntry) (e : CacheEntry) (a : Nat)
    (hmem : e ∈ l) (hnd : (l.map (fun x => x.eid)).Nodup) :
    (l.filter (fun x => x.value == a)).length
      = ((l.filter (fun x => x.eid != e.eid)).filter (fun x => x.value == a)).length
        + (if e.value = a then 1 else 0) := by
  induction l with
  | nil => cases hmem
  | cons y ys ih =>
    simp only [List.map_cons, List.nodup_cons] at hnd
    rcases List.mem_cons.mp hmem with rfl | hmem'
    · have hys : ys.filter (fun x => x.eid != e.eid) = ys := by
        apply List.filter_eq_self.mpr
        intro x hx
        have hmm : x.eid ∈ ys.map (fun x => x.eid) := List.mem_map_of_mem _ hx
        simp only [bne_iff_ne, ne_eq]
        intro hcontra
        exact hnd.1 (hcontra ▸ hmm)
      by_cases hv : e.value = a <;>
        simp [List.filter_cons, hys, hv]
    · have hy : y.eid ≠ e.eid := by
        intro hcontra
        have hmm : e.eid ∈ ys.map (fun x => x.eid) := List.mem_map_of_mem _ hmem'
        exact hnd.1 (hcontra ▸ hmm)
      have hrec := ih hmem' hnd.2
      by_cases hv : y.value = a <;>
        simp [List.filter_cons, hy, hv, hrec] <;> omega

/-- The sum of charges of a list of charge-1 entries is its length. -/
theorem sum_charges_of_ones (l : List CacheEntry) (h : ∀ e ∈ l, e.charge = 1) :
    (l.map (fun e => e.charge)).sum = l.length := by
  induction l with
  | nil => rfl
  | cons y ys ih =>
    simp only [List.map_cons, List.sum_cons, List.length_cons, h y (by simp)]
    rw [ih (fun e he => h e (List.mem_cons_of_mem _ he))]
    omega

/-- Occupancy of a world whose entries are all resident with charge 1 is
the number of entries. -/
theorem occupancy_of_shape (w : World) (h : ∀ e ∈ w.entries, e.resident = true ∧ e.charge = 1) :
    occupancy w = w.entries.length := by
  unfold occupancy
  rw [List.filter_eq_self.mpr (fun e he => by simp [(h e he).1])]
  exact sum_charges_of_ones _ (fun e he => (h e he).2)

/-! ## Equation lemmas for the engine primitives -/

/-- Evicting a refcount-1 member entry clears it: the entry is removed, its
deleter fires (releasing one artifact reference, destroying the artifact if
that was the last one), and the invocation is logged with resident flag
false and refcount 1. -/
theorem evictOne_eq (w : World) (e : CacheEntry) (hmem : e ∈ w.entries)
    (hnd : (w.entries.map (fun x => x.eid)).Nodup) (hrc : e.refcount = 1) :
    evictOne w e.eid =
      { w with entries := w.entries.filter (fun x => x.eid != e.eid),
               artRef := Function.update w.artRef e.value (w.artRef e.value - 1),
               destroyed := if w.artRef e.value = 1 then w.destroyed ++ [e.value]
                            else w.destroyed,
               deleterLog := w.deleterLog ++ [(e.eid, false, 1)] } := by
  have hfind0 := find?_map_eid w.entries e.eid (fun x => { x with resident := false })
    (fun x => rfl)
  rw [find?_eid_of_mem w.entries e hmem hnd] at hfind0
  have hfilter := filter_ne_map_eid w.entries e.eid
    (fun x => { x with resident := false }) (fun x => rfl)
  beta_reduce at hfind0 hfilter
  rw [Option.map_some'] at hfind0
  simp only [evictOne, unref]
  rw [hfind0]
  simp only [hrc]
  rw [if_pos (by omega)]
  simp only [fireDeleter, artRelease]
  by_cases h1 : w.artRef e.value = 1
  · rw [if_pos h1]
    simp [h1]
    simpa using hfilter
  · rw [if_neg h1]
    simp [h1]
    simpa using hfilter

/-- Releasing one reference of a resident refcount-2 member entry moves it
to the most-recently-used end with refcount 1. -/
theorem unref_eq_move (w : World) (e : CacheEntry) (hmem : e ∈ w.entries)
    (hnd : (w.entries.map (fun x => x.eid)).Nodup) (hrc : e.refcount = 2)
    (hres : e.resident = true) :
    unref w e.eid =
      { w with entries := w.entries.filter (fun x => x.eid != e.eid)
                            ++ [{ e with refcount := 1 }] } := by
  have hfind : w.entries.find? (fun x => x.eid == e.eid) = some e :=
    find?_eid_of_mem _ e hmem hnd
  simp [unref, hfind, hrc, hres]

/-! ## Frame lemmas: fields the primitives never touch -/

/-- Dropping an engine reference never changes capacity, next entry id,
metrics, client-held references, or the artifact counter. -/
theorem unref_frame (w : World) (n : Nat) :
    (unref w n).capacity = w.capacity ∧ (unref w n).nextId = w.nextId ∧
    (unref w n).metrics = w.metrics ∧ (unref w n).clientRef = w.clientRef ∧
    (unref w n).nextArt = w.nextArt := by
  unfold unref fireDeleter artRelease
  split
  · exact ⟨rfl, rfl, rfl, rfl, rfl⟩
  · dsimp only
    split_ifs <;> exact ⟨rfl, rfl, rfl, rfl, rfl⟩

/-- Eviction never changes capacity, next entry id, metrics, client-held
references, or the artifact counter. -/
theorem evictOne_frame (w : World) (n : Nat) :
    (evictOne w n).capacity = w.capacity ∧ (evictOne w n).nextId = w.nextId ∧
    (evictOne w n).metrics = w.metrics ∧ (evictOne w n).clientRef = w.clientRef ∧
    (evictOne w n).nextArt = w.nextArt := by
  unfold evictOne
  exact unref_frame _ n

/-- The capacity-pressure loop never changes capacity, next entry id,
metrics, client-held references, or the artifact counter. -/
theorem evictLoop_frame : ∀ (fuel : Nat) (w : World),
    (evictLoop fuel w).capacity = w.capacity ∧ (evictLoop fuel w).nextId = w.nextId ∧
    (evictLoop fuel w).metrics = w.metrics ∧ (evictLoop fuel w).clientRef = w.clientRef ∧
    (evictLoop fuel w).nextArt = w.nextArt := by
  intro fuel
  induction fuel with
  | zero => intro w; exact ⟨rfl, rfl, rfl, rfl, rfl⟩
  | succ n ih =>
    intro w
    unfold evictLoop
    split
    · exact ⟨rfl, rfl, rfl, rfl, rfl⟩
    · split
      · exact ⟨rfl, rfl, rfl, rfl, rfl⟩
      · rename_i e _
        obtain ⟨c1, c2, c3, c4, c5⟩ := ih (evictOne w e.eid)
        obtain ⟨d1, d2, d3, d4, d5⟩ := evictOne_frame w e.eid
        exact ⟨c1.trans d1, c2.trans d2, c3.trans d3, c4.trans d4, c5.trans d5⟩

/-- A successful AddEntry never changes capacity, metrics, client-held
references, or the artifact counter, and allocates exactly one entry id. -/
theorem AddEntry_frame (w : World) (aid : Nat) (k : Nat) :
    (AddEntry w aid (some k)).2.capacity = w.capacity ∧
    (AddEntry w aid (some k)).2.nextId = w.nextId + 1 ∧
    (AddEntry w aid (some k)).2.metrics = w.metrics ∧
    (AddEntry w aid (some k)).2.clientRef = w.clientRef ∧
    (AddEntry w aid (some k)).2.nextArt = w.nextArt := by
  simp only [AddEntry, engineInsert, artAddRef]
  split
  · rename_i e _
    obtain ⟨u1, u2, u3, u4, u5⟩ := unref_frame (evictLoop
      ((evictOne { w with artRef := Function.update w.artRef aid (w.artRef aid + 1) } e.eid).entries
        ++ [_]).length _) _
    obtain ⟨l1, l2, l3, l4, l5⟩ := evictLoop_frame _ _
    obtain ⟨o1, o2, o3, o4, o5⟩ := evictOne_frame
      { w with artRef := Function.update w.artRef aid (w.artRef aid + 1) } e.eid
    refine ⟨?_, ?_, ?_, ?_, ?_⟩
    · exact u1.trans (l1.trans o1)
    · exact u2.trans (l2.trans (by simp [o2]))
    · exact u3.trans (l3.trans o3)
    · exact u4.trans (l4.trans o4)
    · exact u5.trans (l5.trans o5)
  · obtain ⟨u1, u2, u3, u4, u5⟩ := unref_frame (evictLoop
      ((w.entries ++ [_]).length) _) _
    obtain ⟨l1, l2, l3, l4, l5⟩ := evictLoop_frame _ _
    exact ⟨u1.trans l1, u2.trans l2, u3.trans l3, u4.trans l4, u5.trans l5⟩

/-! ## Ghost bookkeeping invariant -/

/-- Ghost bookkeeping invariant relating the artifact ownership counters,
the entries, the destruction log and the deleter log. The offset `off` is
the pending-reference discrepancy tolerated mid-AddEntry, where the AddRef
precedes the Insert that stores the value (it is zero at operation
boundaries). -/
structure Ghost (off : Nat → Nat) (w : World) : Prop where
  eidNodup : (w.entries.map (fun x => x.eid)).Nodup
  eidLt : ∀ e ∈ w.entries, e.eid < w.nextId
  refEq : ∀ a, w.artRef a = w.clientRef a + liveCount w a + off a
  logLt : ∀ p ∈ w.deleterLog, p.1 < w.nextId
  logNodup : (w.deleterLog.map (fun p => p.1)).Nodup
  logFresh : ∀ e ∈ w.entries, ∀ p ∈ w.deleterLog, p.1 ≠ e.eid
  logOk : ∀ p ∈ w.deleterLog, p.2.1 = false ∧ p.2.2 = 1
  desZero : ∀ a ∈ w.destroyed, w.artRef a = 0
  desNodup : w.destroyed.Nodup

/-- Freshness of artifact ids: every artifact ever referenced or destroyed
was allocated below the artifact counter. -/
structure Fresh (w : World) : Prop where
  artBound : ∀ a, w.artRef a ≠ 0 → a < w.nextArt
  desBound : ∀ a ∈ w.destroyed, a < w.nextArt

/-- Evicting a refcount-1 member entry preserves the ghost invariant. -/
theorem ghost_evictOne (off : Nat → Nat) (w : World) (e : CacheEntry)
    (hg : Ghost off w) (hmem : e ∈ w.entries) (hrc : e.refcount = 1) :
    Ghost off (evictOne w e.eid) := by
  rw [evictOne_eq w e hmem hg.eidNodup hrc]
  have hlive : 1 ≤ liveCount w e.value := by
    have hm : e ∈ w.entries.filter (fun x => x.value == e.value) :=
      List.mem_filter.mpr ⟨hmem, by simp⟩
    exact List.length_pos_of_mem hm
  have hsplit := fun a => liveCount_split w.entries e a hmem hg.eidNodup
  refine ⟨?_, ?_, ?_, ?_, ?_, ?_, ?_, ?_, ?_⟩
  · exact List.Nodup.sublist (List.Sublist.map _ (List.filter_sublist _)) hg.eidNodup
  · intro x hx
    exact hg.eidLt x (List.mem_filter.mp hx).1
  · intro a
    show Function.update w.artRef e.value (w.artRef e.value - 1) a
      = w.clientRef a + ((w.entries.filter (fun x => x.eid != e.eid)).filter
          (fun x => x.value == a)).length + off a
    have h0 := hg.refEq a
    have h1 := hsplit a
    have hl := hlive
    simp only [liveCount] at h0 hl
    by_cases ha : a = e.value
    · rw [ha, Function.update_same]
      rw [ha] at h0 h1
      rw [if_pos rfl] at h1
      omega
    · rw [Function.update_noteq ha]
      rw [if_neg (fun hc => ha hc.symm)] at h1
      omega
  · intro p hp
    rcases List.mem_append.mp hp with hp' | hp'
    · exact hg.logLt p hp'
    · simp only [List.mem_singleton] at hp'
      subst hp'
      exact hg.eidLt e hmem
  · simp only [List.map_append]
    rw [List.nodup_append]
    refine ⟨hg.logNodup, by simp, ?_⟩
    intro x hx
    simp only [List.map_cons, List.map_nil, List.mem_singleton]
    rcases List.mem_map.mp hx with ⟨p, hp, rfl⟩
    exact hg.logFresh e hmem p hp
  · intro x hx p hp
    have hx' := List.mem_filter.mp hx
    rcases List.mem_append.mp hp with hp' | hp'
    · exact hg.logFresh x hx'.1 p hp'
    · simp only [List.mem_singleton] at hp'
      subst hp'
      have := hx'.2
      simp only [bne_iff_ne, ne_eq] at this
      exact fun hc => this (hc.symm)
  · intro p hp
    rcases List.mem_append.mp hp with hp' | hp'
    · exact hg.logOk p hp'
    · simp only [List.mem_singleton] at hp'
      subst hp'
      exact ⟨rfl, rfl⟩
  · intro a ha
    by_cases h1 : w.artRef e.value = 1
    · rw [if_pos h1] at ha
      rcases List.mem_append.mp ha with ha' | ha'
      · have hz := hg.desZero a ha'
        have hne : a ≠ e.value := fun hc => by rw [hc] at hz; omega
        show Function.update w.artRef e.value (w.artRef e.value - 1) a = 0
        rw [Function.update_noteq hne]
        exact hz
      · simp only [List.mem_singleton] at ha'
        show Function.update w.artRef e.value (w.artRef e.value - 1) a = 0
        rw [ha', Function.update_same, h1]
    · rw [if_neg h1] at ha
      have hz := hg.desZero a ha
      have hne : a ≠ e.value := by
        intro hc
        have h0 := hg.refEq e.value
        have hz2 := hz
        rw [hc] at hz2
        omega
      show Function.update w.artRef e.value (w.artRef e.value - 1) a = 0
      rw [Function.update_noteq hne]
      exact hz
  · by_cases h1 : w.artRef e.value = 1
    · rw [if_pos h1]
      rw [List.nodup_append]
      refine ⟨hg.desNodup, by simp, ?_⟩
      intro x hx
      simp only [List.mem_singleton]
      intro hc
      have hz := hg.desZero x hx
      rw [hc] at hz
      omega
    · rw [if_neg h1]
      exact hg.desNodup

/-- Evicting a refcount-1 member entry preserves artifact-id freshness. -/
theorem fresh_evictOne (w : World) (e : CacheEntry) (hf : Fresh w)
    (hmem : e ∈ w.entries) (hnd : (w.entries.map (fun x => x.eid)).Nodup)
    (hrc : e.refcount = 1) : Fresh (evictOne w e.eid) := by
  rw [evictOne_eq w e hmem hnd hrc]
  refine ⟨?_, ?_⟩
  · intro a ha
    apply hf.artBound a
    intro h0
    apply ha
    show Function.update w.artRef e.value (w.artRef e.value - 1) a = 0
    by_cases hv : a = e.value
    · rw [hv] at h0
      rw [hv, Function.update_same, h0]
    · rw [Function.update_noteq hv]
      exact h0
  · intro a ha
    by_cases h1 : w.artRef e.value = 1
    · rw [if_pos h1] at ha
      rcases List.mem_append.mp ha with ha' | ha'
      · exact hf.desBound a ha'
      · simp only [List.mem_singleton] at ha'
        rw [ha']
        exact hf.artBound e.value (by omega)
    · rw [if_neg h1] at ha
      exact hf.desBound a ha

/-- The capacity-pressure loop preserves the ghost invariant and artifact
freshness. -/
theorem ghost_fresh_evictLoop (off : Nat → Nat) : ∀ (fuel : Nat) (w : World),
    Ghost off w → Fresh w →
    Ghost off (evictLoop fuel w) ∧ Fresh (evictLoop fuel w) := by
  intro fuel
  induction fuel with
  | zero => intro w hg hf; exact ⟨hg, hf⟩
  | succ n ih =>
    intro w hg hf
    unfold evictLoop
    split
    · exact ⟨hg, hf⟩
    · split
      · exact ⟨hg, hf⟩
      · rename_i e hfind
        have hmem := List.mem_of_find?_eq_some hfind
        have hpred := List.find?_some hfind
        simp only [Bool.and_eq_true, beq_iff_eq] at hpred
        exact ih _ (ghost_evictOne off w e hg hmem hpred.2)
          (fresh_evictOne w e hf hmem hg.eidNodup hpred.2)

/-- Explicit description of the capacity-pressure loop on a list of
normalized entries followed by the one pinned (refcount-2) entry just
inserted: the loop drops entries from the least-recently-used end until the
occupancy fits, and can never evict the pinned entry. -/
theorem evictLoop_shape : ∀ (fuel : Nat) (xs : List CacheEntry) (w : World) (p : CacheEntry),
    w.entries = xs ++ [p] →
    (∀ e ∈ xs, e.refcount = 1 ∧ e.resident = true ∧ e.charge = 1) →
    p.refcount = 2 → p.resident = true → p.charge = 1 →
    ((xs ++ [p]).map (fun x => x.eid)).Nodup →
    xs.length ≤ fuel →
    (evictLoop fuel w).entries = xs.drop (xs.length + 1 - w.capacity) ++ [p] := by
  intro fuel
  induction fuel with
  | zero =>
    intro xs w p hent hxs hp2 hpr hpc hnd hlen
    have hx : xs = [] := List.length_eq_zero.mp (Nat.le_zero.mp hlen)
    subst hx
    simpa [evictLoop] using hent
  | succ n ih =>
    intro xs w p hent hxs hp2 hpr hpc hnd hlen
    have hocc : occupancy w = xs.length + 1 := by
      have hsh : ∀ e ∈ w.entries, e.resident = true ∧ e.charge = 1 := by
        intro e he
        rw [hent] at he
        rcases List.mem_append.mp he with he' | he'
        · exact ⟨(hxs e he').2.1, (hxs e he').2.2⟩
        · simp only [List.mem_singleton] at he'
          rw [he']
          exact ⟨hpr, hpc⟩
      rw [occupancy_of_shape w hsh, hent]
      simp
    unfold evictLoop
    by_cases hc : occupancy w ≤ w.capacity
    · rw [if_pos hc]
      have hz : xs.length + 1 - w.capacity = 0 := by omega
      rw [hz, List.drop_zero, hent]
    · rw [if_neg hc]
      cases xs with
      | nil =>
        have hfind : w.entries.find? (fun e => e.resident && e.refcount == 1) = none := by
          rw [hent]
          simp [hp2]
        rw [hfind]
        simpa using hent
      | cons y ys =>
        have hy := hxs y (by simp)
        have hfind : w.entries.find? (fun e => e.resident && e.refcount == 1) = some y := by
          rw [hent]
          exact List.find?_cons_of_pos _ (by simp [hy.1, hy.2.1])
        rw [hfind]
        have hmem : y ∈ w.entries := by rw [hent]; simp
        have hnd' : (w.entries.map (fun x => x.eid)).Nodup := by rw [hent]; exact hnd
        have hw' := evictOne_eq w y hmem hnd' hy.1
        have hnotin : y.eid ∉ (ys ++ [p]).map (fun x => x.eid) := by
          have hh := hnd
          simp only [List.cons_append, List.map_cons, List.nodup_cons] at hh
          exact hh.1
        have hent' : (evictOne w y.eid).entries = ys ++ [p] := by
          rw [hw']
          show w.entries.filter (fun x => x.eid != y.eid) = ys ++ [p]
          rw [hent]
          show ((y :: (ys ++ [p])).filter (fun x => x.eid != y.eid)) = ys ++ [p]
          rw [List.filter_cons_of_neg (by simp)]
          apply List.filter_eq_self.mpr
          intro x hx
          simp only [bne_iff_ne, ne_eq]
          intro hcontra
          exact hnotin (hcontra ▸ List.mem_map_of_mem _ hx)
        have hnd2 : ((ys ++ [p]).map (fun x => x.eid)).Nodup := by
          have hh := hnd
          simp only [List.cons_append, List.map_cons, List.nodup_cons] at hh
          exact hh.2
        have hrec := ih ys (evictOne w y.eid) p hent'
          (fun e he => hxs e (by simp [he])) hp2 hpr hpc hnd2
          (by simp only [List.length_cons] at hlen; omega)
        rw [hrec, (evictOne_frame w y.eid).1]
        have hcap : w.capacity ≤ ys.length + 1 := by
          rw [hocc] at hc
          simp only [List.length_cons] at hc
          omega
        have harith : (y :: ys).length + 1 - w.capacity = (ys.length + 1 - w.capacity) + 1 := by
          simp only [List.length_cons]
          omega
        rw [harith, List.drop_succ_cons]

/-! ## Structural invariant at operation boundaries -/

/-- Structural invariant of worlds at operation boundaries: every entry is
resident with charge 1 and refcount 1 (the facade releases every engine
handle before returning, so between facade calls the cache itself holds the
only engine reference to each entry), entry ids are distinct and below the
allocation counter, and at most one resident entry exists per key (spec.md
§3 invariant 1). -/
structure SInv (w : World) : Prop where
  nf : ∀ e ∈ w.entries, e.refcount = 1 ∧ e.resident = true ∧ e.charge = 1
  eidNodup : (w.entries.map (fun x => x.eid)).Nodup
  eidLt : ∀ e ∈ w.entries, e.eid < w.nextId
  keyNodup : (w.entries.map (fun x => x.key)).Nodup

/-- Appending a fresh-id entry to a sublist of the entries keeps ids
distinct. -/
theorem nodup_eids_append_of_sublist (w : World) (h : SInv w) (l : List CacheEntry)
    (hl : l.Sublist w.entries) (p : CacheEntry) (hp : p.eid = w.nextId) :
    ((l ++ [p]).map (fun x => x.eid)).Nodup := by
  rw [List.map_append, List.nodup_append]
  refine ⟨List.Nodup.sublist (hl.map _) h.eidNodup, by simp, ?_⟩
  intro x hx
  rcases List.mem_map.mp hx with ⟨e, he, rfl⟩
  have := h.eidLt e (hl.subset he)
  simp only [List.map_cons, List.map_nil, List.mem_singleton, hp]
  omega

/-- Shape of the tail of engine Insert: appending the fresh pinned entry
and running the capacity-pressure loop drops least-recently-used entries
until the occupancy fits. -/
theorem insert_tail_shape (m : World) (k v : Nat)
    (hnf : ∀ e ∈ m.entries, e.refcount = 1 ∧ e.resident = true ∧ e.charge = 1)
    (hnd : ((m.entries ++ [({ eid := m.nextId, key := k, value := v, charge := 1, refcount := 2, resident := true } : CacheEntry)]).map (fun x => x.eid)).Nodup) :
    (evictLoop (m.entries ++ [({ eid := m.nextId, key := k, value := v, charge := 1, refcount := 2, resident := true } : CacheEntry)]).length
      { m with entries := m.entries ++ [{ eid := m.nextId, key := k, value := v, charge := 1, refcount := 2, resident := true }], nextId := m.nextId + 1 }).entries
    = m.entries.drop (m.entries.length + 1 - m.capacity)
      ++ [{ eid := m.nextId, key := k, value := v, charge := 1, refcount := 2, resident := true }] :=
  evictLoop_shape _ m.entries _ _ rfl hnf rfl rfl rfl hnd (by simp)

/-- Explicit form of engine Insert under the boundary invariant: any
resident entry with the inserted key is removed, the least-recently-used
entries are dropped until the occupancy fits, and the new entry sits at the
most-recently-used end, pinned by the returned handle (refcount 2). -/
theorem engineInsert_entries (w : World) (k v : Nat) (h : SInv w) :
    (engineInsert w k v 1).1 = w.nextId ∧
    (engineInsert w k v 1).2.entries
      = (w.entries.filter (fun e => e.key != k)).drop
          ((w.entries.filter (fun e => e.key != k)).length + 1 - w.capacity)
        ++ [{ eid := w.nextId, key := k, value := v, charge := 1, refcount := 2, resident := true }] := by
  rcases hfind : w.entries.find? (fun e => e.resident && e.key == k) with _ | old
  · have hbase : w.entries.filter (fun e => e.key != k) = w.entries := by
      apply List.filter_eq_self.mpr
      intro x hx
      have hnot := List.find?_eq_none.mp hfind x hx
      simp only [Bool.and_eq_true, beq_iff_eq, not_and] at hnot
      simp only [bne_iff_ne, ne_eq]
      exact hnot (h.nf x hx).2.1
    have hsh := insert_tail_shape w k v h.nf
      (nodup_eids_append_of_sublist w h w.entries (List.Sublist.refl _) _ rfl)
    simp only [engineInsert, hfind]
    constructor
    · trivial
    · rw [hbase]
      exact hsh
  · have hpred := List.find?_some hfind
    have hmem := List.mem_of_find?_eq_some hfind
    simp only [Bool.and_eq_true, beq_iff_eq] at hpred
    have hrcold : old.refcount = 1 := (h.nf old hmem).1
    have hbase : w.entries.filter (fun x => x.eid != old.eid)
        = w.entries.filter (fun e => e.key != k) := by
      apply List.filter_congr
      intro x hx
      by_cases he : x.eid = old.eid
      · have hxo : x = old := List.inj_on_of_nodup_map h.eidNodup hx hmem he
        have h1 : (x.eid != old.eid) = false := by simpa using he
        have h2 : (x.key != k) = false := by
          simp only [bne_eq_false_iff_eq, beq_iff_eq]
          rw [hxo]
          exact hpred.2
        rw [h1, h2]
      · have hk : x.key ≠ k := by
          intro hc
          have hxo : x = old :=
            List.inj_on_of_nodup_map h.keyNodup hx hmem (by rw [hc, hpred.2])
          exact he (by rw [hxo])
        have h1 : (x.eid != old.eid) = true := by simpa using he
        have h2 : (x.key != k) = true := by simpa using hk
        rw [h1, h2]
    have hframe := evictOne_frame w old.eid
    have hent1 : (evictOne w old.eid).entries = w.entries.filter (fun e => e.key != k) := by
      rw [evictOne_eq w old hmem h.eidNodup hrcold]
      exact hbase
    have hnf1 : ∀ e ∈ (evictOne w old.eid).entries,
        e.refcount = 1 ∧ e.resident = true ∧ e.charge = 1 := by
      intro e he
      rw [hent1] at he
      exact h.nf e (List.mem_filter.mp he).1
    have hnd1 : (((evictOne w old.eid).entries ++ [({ eid := (evictOne w old.eid).nextId, key := k, value := v, charge := 1, refcount := 2, resident := true } : CacheEntry)]).map (fun x => x.eid)).Nodup := by
      rw [hent1, hframe.2.1]
      exact nodup_eids_append_of_sublist w h _ (List.filter_sublist _) _ rfl
    have hsh := insert_tail_shape (evictOne w old.eid) k v hnf1 hnd1
    simp only [engineInsert, hfind]
    constructor
    · exact hframe.2.1
    · rw [hsh, hent1, hframe.1, hframe.2.1]

/-- Explicit form of CodeCache::AddEntry on a boundary world: it succeeds,
and the entries afterwards are those that survived the same-key eviction
and the LRU capacity pressure, followed by the new resident entry at the
most-recently-used end with the cache holding its only reference. -/
theorem AddEntry_entries (w : World) (aid k : Nat) (h : SInv w) :
    (AddEntry w aid (some k)).1 = Status.ok ∧
    (AddEntry w aid (some k)).2.entries
      = (w.entries.filter (fun e => e.key != k)).drop
          ((w.entries.filter (fun e => e.key != k)).length + 1 - w.capacity)
        ++ [{ eid := w.nextId, key := k, value := aid, charge := 1, refcount := 1, resident := true }] := by
  have h' : SInv (artAddRef w aid) := ⟨h.nf, h.eidNodup, h.eidLt, h.keyNodup⟩
  obtain ⟨hi1, hi2⟩ := engineInsert_entries (artAddRef w aid) k aid h'
  have hi1' : (engineInsert (artAddRef w aid) k aid 1).1 = w.nextId := hi1
  have hi2' : (engineInsert (artAddRef w aid) k aid 1).2.entries
      = (w.entries.filter (fun e => e.key != k)).drop
          ((w.entries.filter (fun e => e.key != k)).length + 1 - w.capacity)
        ++ [{ eid := w.nextId, key := k, value := aid, charge := 1, refcount := 2, resident := true }] := hi2
  have hsub : ((w.entries.filter (fun e => e.key != k)).drop
      ((w.entries.filter (fun e => e.key != k)).length + 1 - w.capacity)).Sublist w.entries :=
    List.Sublist.trans (List.drop_sublist _ _) (List.filter_sublist _)
  have hmem : ({ eid := w.nextId, key := k, value := aid, charge := 1, refcount := 2, resident := true } : CacheEntry) ∈ (engineInsert (artAddRef w aid) k aid 1).2.entries := by
    rw [hi2']
    simp
  have hnd2 : ((engineInsert (artAddRef w aid) k aid 1).2.entries.map (fun x => x.eid)).Nodup := by
    rw [hi2']
    exact nodup_eids_append_of_sublist w h _ hsub _ rfl
  have hmove := unref_eq_move (engineInsert (artAddRef w aid) k aid 1).2
    { eid := w.nextId, key := k, value := aid, charge := 1, refcount := 2, resident := true }
    hmem hnd2 rfl rfl
  dsimp only at hmove
  refine ⟨rfl, ?_⟩
  show (unref (engineInsert (artAddRef w aid) k aid 1).2
      (engineInsert (artAddRef w aid) k aid 1).1).entries = _
  rw [hi1', hmove]
  show (engineInsert (artAddRef w aid) k aid 1).2.entries.filter (fun x => x.eid != w.nextId)
      ++ [{ eid := w.nextId, key := k, value := aid, charge := 1, refcount := 1, resident := true }] = _
  rw [hi2', List.filter_append]
  have hkeep : ((w.entries.filter (fun e => e.key != k)).drop
      ((w.entries.filter (fun e => e.key != k)).length + 1 - w.capacity)).filter
        (fun x => x.eid != w.nextId)
      = (w.entries.filter (fun e => e.key != k)).drop
          ((w.entries.filter (fun e => e.key != k)).length + 1 - w.capacity) := by
    apply List.filter_eq_self.mpr
    intro x hx
    have := h.eidLt x (hsub.subset hx)
    simpa using Nat.ne_of_lt this
  have hlast : ([({ eid := w.nextId, key := k, value := aid, charge := 1, refcount := 2, resident := true } : CacheEntry)].filter (fun x => x.eid != w.nextId)) = [] := by
    simp
  rw [hkeep, hlast]
  simp

/-! ## Ghost preservation through AddEntry -/

/-- The cache-side AddRef of AddEntry shifts the counting invariant by one
pending reference for the artifact about to be stored. -/
theorem ghost_artAddRef (w : World) (aid : Nat) (hg : Ghost (fun _ => 0) w)
    (hdes : aid ∉ w.destroyed) :
    Ghost (fun a => if a = aid then 1 else 0) (artAddRef w aid) := by
  refine ⟨hg.eidNodup, hg.eidLt, ?_, hg.logLt, hg.logNodup, hg.logFresh, hg.logOk, ?_, hg.desNodup⟩
  · intro a
    show Function.update w.artRef aid (w.artRef aid + 1) a
      = w.clientRef a + liveCount w a + (if a = aid then 1 else 0)
    by_cases ha : a = aid
    · rw [ha, Function.update_same, if_pos rfl]
      have := hg.refEq aid
      omega
    · rw [Function.update_noteq ha, if_neg ha]
      have := hg.refEq a
      omega
  · intro a ha
    have hz := hg.desZero a ha
    have hne : a ≠ aid := fun hc => hdes (hc ▸ ha)
    show Function.update w.artRef aid (w.artRef aid + 1) a = 0
    rw [Function.update_noteq hne]
    exact hz

/-- The cache-side AddRef preserves artifact freshness when the artifact id
was allocated. -/
theorem fresh_artAddRef (w : World) (aid : Nat) (hf : Fresh w) (haid : aid < w.nextArt) :
    Fresh (artAddRef w aid) := by
  refine ⟨?_, hf.desBound⟩
  intro a ha
  show a < w.nextArt
  by_cases hv : a = aid
  · rw [hv]
    exact haid
  · apply hf.artBound a
    intro h0
    apply ha
    show Function.update w.artRef aid (w.artRef aid + 1) a = 0
    rw [Function.update_noteq hv]
    exact h0

/-- Releasing the handle of a resident refcount-2 entry (the move to the
most-recently-used end) preserves the ghost invariant. -/
theorem ghost_move (off : Nat → Nat) (w : World) (e : CacheEntry) (hg : Ghost off w)
    (hmem : e ∈ w.entries) (hrc : e.refcount = 2) (hres : e.resident = true) :
    Ghost off (unref w e.eid) := by
  rw [unref_eq_move w e hmem hg.eidNodup hrc hres]
  have hsplit := fun a => liveCount_split w.entries e a hmem hg.eidNodup
  refine ⟨?_, ?_, ?_, hg.logLt, hg.logNodup, ?_, hg.logOk, hg.desZero, hg.desNodup⟩
  · simp only [List.map_append, List.map_cons, List.map_nil]
    rw [List.nodup_append]
    refine ⟨List.Nodup.sublist (List.Sublist.map _ (List.filter_sublist _)) hg.eidNodup,
      by simp, ?_⟩
    intro x hx
    rcases List.mem_map.mp hx with ⟨y, hy, rfl⟩
    have hy' := List.mem_filter.mp hy
    simp only [List.mem_singleton]
    have := hy'.2
    simp only [bne_iff_ne, ne_eq] at this
    simpa using this
  · intro x hx
    rcases List.mem_append.mp hx with hx' | hx'
    · exact hg.eidLt x (List.mem_filter.mp hx').1
    · simp only [List.mem_singleton] at hx'
      rw [hx']
      exact hg.eidLt e hmem
  · intro a
    have h0 := hg.refEq a
    have h1 := hsplit a
    show w.artRef a = w.clientRef a
      + liveCount { w with entries := w.entries.filter (fun x => x.eid != e.eid)
          ++ [{ e with refcount := 1 }] } a + off a
    simp only [liveCount, List.filter_append] at h0 ⊢
    by_cases hv : e.value = a
    · rw [if_pos hv] at h1
      have h2 : ([({ e with refcount := 1 } : CacheEntry)].filter (fun x => x.value == a)).length = 1 := by
        simp [hv]
      rw [List.length_append, h2]
      omega
    · rw [if_neg hv] at h1
      have h2 : ([({ e with refcount := 1 } : CacheEntry)].filter (fun x => x.value == a)).length = 0 := by
        simp [hv]
      rw [List.length_append, h2]
      omega
  · intro x hx p hp
    rcases List.mem_append.mp hx with hx' | hx'
    · exact hg.logFresh x (List.mem_filter.mp hx').1 p hp
    · simp only [List.mem_singleton] at hx'
      rw [hx']
      exact hg.logFresh e hmem p hp

/-- Releasing the handle of a resident refcount-2 entry preserves artifact
freshness. -/
theorem fresh_move (w : World) (e : CacheEntry) (hf : Fresh w)
    (hnd : (w.entries.map (fun x => x.eid)).Nodup)
    (hmem : e ∈ w.entries) (hrc : e.refcount = 2) (hres : e.resident = true) :
    Fresh (unref w e.eid) := by
  rw [unref_eq_move w e hmem hnd hrc hres]
  exact ⟨hf.artBound, hf.desBound⟩

/-- Engine Insert of an artifact carrying one pending reference restores
the zero-offset ghost invariant: the pending reference becomes the new
entry's stored reference, and evictions release their own references. -/
theorem ghost_engineInsert (w : World) (k aid : Nat) (h : SInv w)
    (hg : Ghost (fun a => if a = aid then 1 else 0) w) (hf : Fresh w) :
    Ghost (fun _ => 0) (engineInsert w k aid 1).2 ∧ Fresh (engineInsert w k aid 1).2 := by
  have hmid : ∀ (m : World), Ghost (fun a => if a = aid then 1 else 0) m → Fresh m →
      Ghost (fun _ => 0) { m with entries := m.entries ++ [({ eid := m.nextId, key := k, value := aid, charge := 1, refcount := 2, resident := true } : CacheEntry)], nextId := m.nextId + 1 }
      ∧ Fresh { m with entries := m.entries ++ [({ eid := m.nextId, key := k, value := aid, charge := 1, refcount := 2, resident := true } : CacheEntry)], nextId := m.nextId + 1 } := by
    intro m hgm hfm
    constructor
    · refine ⟨?_, ?_, ?_, ?_, hgm.logNodup, ?_, hgm.logOk, hgm.desZero, hgm.desNodup⟩
      · simp only [List.map_append, List.map_cons, List.map_nil]
        rw [List.nodup_append]
        refine ⟨hgm.eidNodup, by simp, ?_⟩
        intro x hx
        rcases List.mem_map.mp hx with ⟨y, hy, rfl⟩
        have := hgm.eidLt y hy
        simp only [List.mem_singleton]
        omega
      · intro x hx
        rcases List.mem_append.mp hx with hx' | hx'
        · have := hgm.eidLt x hx'
          show x.eid < m.nextId + 1
          omega
        · simp only [List.mem_singleton] at hx'
          rw [hx']
          show m.nextId < m.nextId + 1
          omega
      · intro a
        have h0 := hgm.refEq a
        show m.artRef a = m.clientRef a + liveCount { m with entries := m.entries ++ [({ eid := m.nextId, key := k, value := aid, charge := 1, refcount := 2, resident := true } : CacheEntry)], nextId := m.nextId + 1 } a + 0
        simp only [liveCount, List.filter_append, List.length_append] at h0 ⊢
        by_cases hv : a = aid
        · rw [if_pos hv] at h0
          have h2 : ([({ eid := m.nextId, key := k, value := aid, charge := 1, refcount := 2, resident := true } : CacheEntry)].filter (fun x => x.value == a)).length = 1 := by
            simp [hv]
          rw [h2]
          omega
        · rw [if_neg hv] at h0
          have h2 : ([({ eid := m.nextId, key := k, value := aid, charge := 1, refcount := 2, resident := true } : CacheEntry)].filter (fun x => x.value == a)).length = 0 := by
            simp
            intro hc
            exact absurd hc.symm hv
          rw [h2]
          omega
      · intro p hp
        have := hgm.logLt p hp
        show p.1 < m.nextId + 1
        omega
      · intro x hx p hp
        rcases List.mem_append.mp hx with hx' | hx'
        · exact hgm.logFresh x hx' p hp
        · simp only [List.mem_singleton] at hx'
          rw [hx']
          have := hgm.logLt p hp
          show p.1 ≠ m.nextId
          omega
    · exact ⟨hfm.artBound, hfm.desBound⟩
  rcases hfind : w.entries.find? (fun e => e.resident && e.key == k) with _ | old
  · simp only [engineInsert, hfind]
    obtain ⟨g2, f2⟩ := hmid w hg hf
    exact ghost_fresh_evictLoop _ _ _ g2 f2
  · have hmem := List.mem_of_find?_eq_some hfind
    have hpred := List.find?_some hfind
    simp only [Bool.and_eq_true, beq_iff_eq] at hpred
    have hrcold : old.refcount = 1 := (h.nf old hmem).1
    have g1 := ghost_evictOne _ w old hg hmem hrcold
    have f1 := fresh_evictOne w old hf hmem hg.eidNodup hrcold
    have hframe := evictOne_frame w old.eid
    simp only [engineInsert, hfind]
    obtain ⟨g2, f2⟩ := hmid (evictOne w old.eid) g1 f1
    exact ghost_fresh_evictLoop _ _ _ g2 f2

/-- A successful AddEntry preserves the ghost invariant and artifact
freshness, provided the artifact id was allocated and not destroyed. -/
theorem ghost_AddEntry (w : World) (aid k : Nat) (h : SInv w)
    (hg : Ghost (fun _ => 0) w) (hf : Fresh w)
    (haid : aid < w.nextArt) (hdes : aid ∉ w.destroyed) :
    Ghost (fun _ => 0) (AddEntry w aid (some k)).2 ∧ Fresh (AddEntry w aid (some k)).2 := by
  have h' : SInv (artAddRef w aid) := ⟨h.nf, h.eidNodup, h.eidLt, h.keyNodup⟩
  have g1 : Ghost (fun a => if a = aid then 1 else 0) (artAddRef w aid) :=
    ghost_artAddRef w aid hg hdes
  have f1 : Fresh (artAddRef w aid) := fresh_artAddRef w aid hf haid
  obtain ⟨g2, f2⟩ := ghost_engineInsert (artAddRef w aid) k aid h' g1 f1
  obtain ⟨hi1, hi2⟩ := engineInsert_entries (artAddRef w aid) k aid h'
  have hi1' : (engineInsert (artAddRef w aid) k aid 1).1 = w.nextId := hi1
  have hi2' : (engineInsert (artAddRef w aid) k aid 1).2.entries
      = (w.entries.filter (fun e => e.key != k)).drop
          ((w.entries.filter (fun e => e.key != k)).length + 1 - w.capacity)
        ++ [{ eid := w.nextId, key := k, value := aid, charge := 1, refcount := 2, resident := true }] := hi2
  have hmem : ({ eid := w.nextId, key := k, value := aid, charge := 1, refcount := 2, resident := true } : CacheEntry) ∈ (engineInsert (artAddRef w aid) k aid 1).2.entries := by
    rw [hi2']
    simp
  have gm := ghost_move (fun _ => 0) (engineInsert (artAddRef w aid) k aid 1).2
    { eid := w.nextId, key := k, value := aid, charge := 1, refcount := 2, resident := true }
    g2 hmem rfl rfl
  have fm := fresh_move (engineInsert (artAddRef w aid) k aid 1).2
    { eid := w.nextId, key := k, value := aid, charge := 1, refcount := 2, resident := true }
    f2 g2.eidNodup hmem rfl rfl
  have hEq : (AddEntry w aid (some k)).2
      = unref (engineInsert (artAddRef w aid) k aid 1).2 w.nextId := by
    show unref (engineInsert (artAddRef w aid) k aid 1).2
      (engineInsert (artAddRef w aid) k aid 1).1 = _
    rw [hi1']
  rw [hEq]
  exact ⟨gm, fm⟩

/-- A successful AddEntry preserves the boundary structural invariant. -/
theorem SInv_AddEntry (w : World) (aid k : Nat) (h : SInv w) :
    SInv (AddEntry w aid (some k)).2 := by
  obtain ⟨-, hent⟩ := AddEntry_entries w aid k h
  have hni := (AddEntry_frame w aid k).2.1
  have hsub : ((w.entries.filter (fun e => e.key != k)).drop
      ((w.entries.filter (fun e => e.key != k)).length + 1 - w.capacity)).Sublist w.entries :=
    List.Sublist.trans (List.drop_sublist _ _) (List.filter_sublist _)
  have hsubf : ((w.entries.filter (fun e => e.key != k)).drop
      ((w.entries.filter (fun e => e.key != k)).length + 1 - w.capacity)).Sublist
      (w.entries.filter (fun e => e.key != k)) := List.drop_sublist _ _
  constructor
  · intro e he
    rw [hent] at he
    rcases List.mem_append.mp he with he' | he'
    · exact h.nf e (hsub.subset he')
    · simp only [List.mem_singleton] at he'
      rw [he']
      exact ⟨rfl, rfl, rfl⟩
  · rw [hent]
    exact nodup_eids_append_of_sublist w h _ hsub _ rfl
  · intro e he
    rw [hent] at he
    rw [hni]
    rcases List.mem_append.mp he with he' | he'
    · have := h.eidLt e (hsub.subset he')
      omega
    · simp only [List.mem_singleton] at he'
      rw [he']
      show w.nextId < w.nextId + 1
      omega
  · rw [hent]
    simp only [List.map_append, List.map_cons, List.map_nil]
    rw [List.nodup_append]
    refine ⟨List.Nodup.sublist (List.Sublist.map _ hsub) h.keyNodup, by simp, ?_⟩
    intro x hx
    rcases List.mem_map.mp hx with ⟨y, hy, rfl⟩
    have hy' := List.mem_filter.mp (hsubf.subset hy)
    simp only [List.mem_singleton]
    have := hy'.2
    simp only [bne_iff_ne, ne_eq] at this
    simpa using this

/-! ## CodeCache::Lookup recharacterization -/

/-- With distinct keys and all entries resident, finding by key returns the
member entry with that key. -/
theorem find?_key_of_mem (l : List CacheEntry) (e : CacheEntry) (hmem : e ∈ l)
    (hnd : (l.map (fun x => x.key)).Nodup) (hres : ∀ x ∈ l, x.resident = true) :
    l.find? (fun x => x.resident && x.key == e.key) = some e := by
  induction l with
  | nil => cases hmem
  | cons y ys ih =>
    rcases List.mem_cons.mp hmem with rfl | hmem'
    · exact List.find?_cons_of_pos _ (by simp [hres e (by simp)])
    · have hy : y.key ≠ e.key := by
        intro hc
        have hmm : e.key ∈ ys.map (fun x => x.key) := List.mem_map_of_mem _ hmem'
        simp only [List.map_cons, List.nodup_cons] at hnd
        exact hnd.1 (hc ▸ hmm)
      rw [List.find?_cons_of_neg _ (by simp [hy])]
      exact ih hmem' (by simp only [List.map_cons, List.nodup_cons] at hnd; exact hnd.2)
        (fun x hx => hres x (List.mem_cons_of_mem _ hx))

/-- A lookup of a key with no resident entry misses: it returns the null
reference and only records the instrumentation event. -/
theorem cacheLookup_miss (w : World) (k : Nat)
    (hmiss : ∀ e ∈ w.entries, e.resident = true → e.key ≠ k) :
    cacheLookup w k = (none, { w with metrics := w.metrics ++ [(true, false)] }) := by
  have hfind : w.entries.find? (fun e => e.resident && e.key == k) = none := by
    apply List.find?_eq_none.mpr
    intro x hx
    simp only [Bool.and_eq_true, beq_iff_eq, not_and]
    exact fun hres => hmiss x hx hres
  simp [cacheLookup, engineLookup, hfind]

/-- A lookup of a resident entry's key on a boundary world hits: it returns
an owning reference to the stored artifact (one more client-held and total
reference), promotes the entry to the most-recently-used end, and records
the instrumentation event. -/
theorem cacheLookup_hit (w : World) (e : CacheEntry) (h : SInv w) (hmem : e ∈ w.entries) :
    cacheLookup w e.key
      = (some e.value,
         { w with metrics := w.metrics ++ [(true, true)],
                  entries := w.entries.filter (fun x => x.eid != e.eid) ++ [e],
                  artRef := Function.update w.artRef e.value (w.artRef e.value + 1),
                  clientRef := Function.update w.clientRef e.value (w.clientRef e.value + 1) }) := by
  have hrc : e.refcount = 1 := (h.nf e hmem).1
  have hres : e.resident = true := (h.nf e hmem).2.1
  have hfind := find?_key_of_mem w.entries e hmem h.keyNodup (fun x hx => (h.nf x hx).2.1)
  have hfind2 := find?_map_eid w.entries e.eid
    (fun x => { x with refcount := x.refcount + 1 }) (fun x => rfl)
  rw [find?_eid_of_mem w.entries e hmem h.eidNodup] at hfind2
  beta_reduce at hfind2
  rw [Option.map_some'] at hfind2
  have hfilter := filter_ne_map_eid w.entries e.eid
    (fun x => { x with refcount := x.refcount + 1 }) (fun x => rfl)
  beta_reduce at hfilter
  have heta : ({ e with refcount := 1 } : CacheEntry) = e := by
    have hr := hrc
    cases e
    simp only at hr
    rw [hr]
  have hmem2 : ({ e with refcount := e.refcount + 1 } : CacheEntry)
      ∈ w.entries.map (fun x => if x.eid == e.eid then { x with refcount := x.refcount + 1 } else x) := by
    have hmm := List.mem_map_of_mem
      (fun x => if x.eid == e.eid then { x with refcount := x.refcount + 1 } else x) hmem
    simpa using hmm
  have hnd2 : ((w.entries.map (fun x => if x.eid == e.eid then { x with refcount := x.refcount + 1 } else x)).map (fun x => x.eid)).Nodup := by
    rw [map_eid_map_update w.entries e.eid (fun x => { x with refcount := x.refcount + 1 }) (fun x => rfl)]
    exact h.eidNodup
  have hmove := unref_eq_move
    (clientAcquire { w with metrics := w.metrics ++ [(true, true)], entries := w.entries.map (fun x => if x.eid == e.eid then { x with refcount := x.refcount + 1 } else x) } e.value)
    { e with refcount := e.refcount + 1 } hmem2 hnd2 (by simp [hrc]) (by simpa using hres)
  dsimp only at hmove
  simp only [cacheLookup, engineLookup, hfind, engineValue, hfind2, Option.map_some']
  rw [hmove]
  simp only [clientAcquire, hfilter, heta]

/-! ## The full invariant and its preservation by client operations -/

/-- Full invariant of worlds at operation boundaries: the structural shape,
the zero-offset ghost counting invariant, and artifact-id freshness. -/
structure Inv (w : World) : Prop where
  s : SInv w
  g : Ghost (fun _ => 0) w
  f : Fresh w

/-- Lookup preserves the full invariant (miss: only metrics change; hit:
the entry is promoted and the caller takes one more owning reference). -/
theorem inv_lookup (w : World) (k : Nat) (h : Inv w) : Inv (cacheLookup w k).2 := by
  rcases hfind : w.entries.find? (fun x => x.resident && x.key == k) with _ | e
  · have hmiss : ∀ x ∈ w.entries, x.resident = true → x.key ≠ k := by
      intro x hx hres
      have hnot := List.find?_eq_none.mp hfind x hx
      simp only [Bool.and_eq_true, beq_iff_eq, not_and] at hnot
      exact hnot hres
    rw [cacheLookup_miss w k hmiss]
    exact ⟨⟨h.s.nf, h.s.eidNodup, h.s.eidLt, h.s.keyNodup⟩,
           ⟨h.g.eidNodup, h.g.eidLt, h.g.refEq, h.g.logLt, h.g.logNodup, h.g.logFresh,
            h.g.logOk, h.g.desZero, h.g.desNodup⟩,
           ⟨h.f.artBound, h.f.desBound⟩⟩
  · have hmem := List.mem_of_find?_eq_some hfind
    have hpred := List.find?_some hfind
    simp only [Bool.and_eq_true, beq_iff_eq] at hpred
    have hlive : 1 ≤ liveCount w e.value := by
      have hm : e ∈ w.entries.filter (fun x => x.value == e.value) :=
        List.mem_filter.mpr ⟨hmem, by simp⟩
      exact List.length_pos_of_mem hm
    have hart1 : w.artRef e.value ≠ 0 := by
      have h0 := h.g.refEq e.value
      omega
    have hsplit := fun a => liveCount_split w.entries e a hmem h.s.eidNodup
    rw [← hpred.2, cacheLookup_hit w e h.s hmem]
    refine ⟨⟨?_, ?_, ?_, ?_⟩, ⟨?_, ?_, ?_, h.g.logLt, h.g.logNodup, ?_, h.g.logOk, ?_, h.g.desNodup⟩, ⟨?_, h.f.desBound⟩⟩
    · intro x hx
      rcases List.mem_append.mp hx with hx' | hx'
      · exact h.s.nf x (List.mem_filter.mp hx').1
      · simp only [List.mem_singleton] at hx'
        rw [hx']
        exact h.s.nf e hmem
    · simp only [List.map_append, List.map_cons, List.map_nil]
      rw [List.nodup_append]
      refine ⟨List.Nodup.sublist (List.Sublist.map _ (List.filter_sublist _)) h.s.eidNodup,
        by simp, ?_⟩
      intro x hx
      rcases List.mem_map.mp hx with ⟨y, hy, rfl⟩
      have hy2 := (List.mem_filter.mp hy).2
      simp only [bne_iff_ne, ne_eq] at hy2
      simpa using hy2
    · intro x hx
      rcases List.mem_append.mp hx with hx' | hx'
      · exact h.s.eidLt x (List.mem_filter.mp hx').1
      · simp only [List.mem_singleton] at hx'
        rw [hx']
        exact h.s.eidLt e hmem
    · simp only [List.map_append, List.map_cons, List.map_nil]
      rw [List.nodup_append]
      refine ⟨List.Nodup.sublist (List.Sublist.map _ (List.filter_sublist _)) h.s.keyNodup,
        by simp, ?_⟩
      intro x hx
      rcases List.mem_map.mp hx with ⟨y, hy, rfl⟩
      simp only [List.mem_singleton]
      intro hc
      have hyo : y = e := List.inj_on_of_nodup_map h.s.keyNodup (List.mem_filter.mp hy).1 hmem hc
      have hy2 := (List.mem_filter.mp hy).2
      rw [hyo] at hy2
      simp at hy2
    · simp only [List.map_append, List.map_cons, List.map_nil]
      rw [List.nodup_append]
      refine ⟨List.Nodup.sublist (List.Sublist.map _ (List.filter_sublist _)) h.g.eidNodup,
        by simp, ?_⟩
      intro x hx
      rcases List.mem_map.mp hx with ⟨y, hy, rfl⟩
      have hy2 := (List.mem_filter.mp hy).2
      simp only [bne_iff_ne, ne_eq] at hy2
      simpa using hy2
    · intro x hx
      rcases List.mem_append.mp hx with hx' | hx'
      · exact h.g.eidLt x (List.mem_filter.mp hx').1
      · simp only [List.mem_singleton] at hx'
        rw [hx']
        exact h.g.eidLt e hmem
    · intro a
      have h0 := h.g.refEq a
      have h1 := hsplit a
      show Function.update w.artRef e.value (w.artRef e.value + 1) a
        = Function.update w.clientRef e.value (w.clientRef e.value + 1) a
          + liveCount { w with metrics := w.metrics ++ [(true, true)], entries := w.entries.filter (fun x => x.eid != e.eid) ++ [e], artRef := Function.update w.artRef e.value (w.artRef e.value + 1), clientRef := Function.update w.clientRef e.value (w.clientRef e.value + 1) } a + 0
      simp only [liveCount, List.filter_append] at h0 ⊢
      by_cases hv : a = e.value
      · rw [hv, Function.update_same, Function.update_same]
        rw [hv] at h0 h1
        rw [if_pos rfl] at h1
        have h2 : ([e].filter (fun x => x.value == e.value)).length = 1 := by simp
        rw [List.length_append, h2]
        omega
      · rw [Function.update_noteq hv, Function.update_noteq hv]
        rw [if_neg (fun hc => hv hc.symm)] at h1
        have h2 : ([e].filter (fun x => x.value == a)).length = 0 := by
          simp
          exact fun hc => absurd hc.symm hv
        rw [List.length_append, h2]
        omega
    · intro x hx p hp
      rcases List.mem_append.mp hx with hx' | hx'
      · exact h.g.logFresh x (List.mem_filter.mp hx').1 p hp
      · simp only [List.mem_singleton] at hx'
        rw [hx']
        exact h.g.logFresh e hmem p hp
    · intro a ha
      have hz := h.g.desZero a ha
      have hne : a ≠ e.value := fun hc => hart1 (hc ▸ hz)
      show Function.update w.artRef e.value (w.artRef e.value + 1) a = 0
      rw [Function.update_noteq hne]
      exact hz
    · intro a ha
      show a < w.nextArt
      by_cases hv : a = e.value
      · rw [hv]
        exact h.f.artBound e.value hart1
      · apply h.f.artBound a
        intro h0
        apply ha
        show Function.update w.artRef e.value (w.artRef e.value + 1) a = 0
        rw [Function.update_noteq hv]
        exact h0

/-- Creating a fresh artifact preserves the full invariant. -/
theorem inv_create (w : World) (h : Inv w) :
    Inv { clientAcquire w w.nextArt with nextArt := w.nextArt + 1 } := by
  refine ⟨⟨h.s.nf, h.s.eidNodup, h.s.eidLt, h.s.keyNodup⟩,
          ⟨h.g.eidNodup, h.g.eidLt, ?_, h.g.logLt, h.g.logNodup, h.g.logFresh,
           h.g.logOk, ?_, h.g.desNodup⟩, ⟨?_, ?_⟩⟩
  · intro a
    have h0 := h.g.refEq a
    show Function.update w.artRef w.nextArt (w.artRef w.nextArt + 1) a
      = Function.update w.clientRef w.nextArt (w.clientRef w.nextArt + 1) a + liveCount w a + 0
    by_cases hv : a = w.nextArt
    · rw [hv, Function.update_same, Function.update_same]
      rw [hv] at h0
      omega
    · rw [Function.update_noteq hv, Function.update_noteq hv]
      omega
  · intro a ha
    have hz := h.g.desZero a ha
    have hne : a ≠ w.nextArt := by
      have := h.f.desBound a ha
      omega
    show Function.update w.artRef w.nextArt (w.artRef w.nextArt + 1) a = 0
    rw [Function.update_noteq hne]
    exact hz
  · intro a ha
    have ha2 : Function.update w.artRef w.nextArt (w.artRef w.nextArt + 1) a ≠ 0 := ha
    show a < w.nextArt + 1
    by_cases hv : a = w.nextArt
    · omega
    · rw [Function.update_noteq hv] at ha2
      have := h.f.artBound a ha2
      omega
  · intro a ha
    have := h.f.desBound a ha
    show a < w.nextArt + 1
    omega

/-- A client dropping one held reference preserves the full invariant. -/
theorem inv_clientDrop (w : World) (aid : Nat) (h : Inv w) : Inv (clientDrop w aid) := by
  unfold clientDrop
  by_cases hpos : w.clientRef aid > 0
  · rw [if_pos hpos]
    have h0 := h.g.refEq aid
    have hge : 1 ≤ w.artRef aid := by omega
    unfold artRelease
    by_cases h1 : w.artRef aid = 1
    · rw [if_pos h1]
      have hlive0 : liveCount w aid = 0 := by omega
      have hcli1 : w.clientRef aid = 1 := by omega
      refine ⟨⟨h.s.nf, h.s.eidNodup, h.s.eidLt, h.s.keyNodup⟩,
              ⟨h.g.eidNodup, h.g.eidLt, ?_, h.g.logLt, h.g.logNodup, h.g.logFresh,
               h.g.logOk, ?_, ?_⟩, ⟨?_, ?_⟩⟩
      · intro a
        have ha0 := h.g.refEq a
        show Function.update w.artRef aid 0 a
          = Function.update w.clientRef aid (w.clientRef aid - 1) a + liveCount w a + 0
        by_cases hv : a = aid
        · rw [hv, Function.update_same, Function.update_same]
          rw [hv] at ha0
          omega
        · rw [Function.update_noteq hv, Function.update_noteq hv]
          omega
      · intro a ha
        rcases List.mem_append.mp ha with ha' | ha'
        · have hz := h.g.desZero a ha'
          have hne : a ≠ aid := fun hc => by rw [hc] at hz; omega
          show Function.update w.artRef aid 0 a = 0
          rw [Function.update_noteq hne]
          exact hz
        · simp only [List.mem_singleton] at ha'
          show Function.update w.artRef aid 0 a = 0
          rw [ha', Function.update_same]
      · rw [List.nodup_append]
        refine ⟨h.g.desNodup, by simp, ?_⟩
        intro x hx
        simp only [List.mem_singleton]
        intro hc
        have hz := h.g.desZero x hx
        rw [hc] at hz
        omega
      · intro a ha
        show a < w.nextArt
        by_cases hv : a = aid
        · rw [hv]
          exact h.f.artBound aid (by omega)
        · apply h.f.artBound a
          intro hz
          apply ha
          show Function.update w.artRef aid 0 a = 0
          rw [Function.update_noteq hv]
          exact hz
      · intro a ha
        rcases List.mem_append.mp ha with ha' | ha'
        · exact h.f.desBound a ha'
        · simp only [List.mem_singleton] at ha'
          rw [ha']
          exact h.f.artBound aid (by omega)
    · rw [if_neg h1]
      refine ⟨⟨h.s.nf, h.s.eidNodup, h.s.eidLt, h.s.keyNodup⟩,
              ⟨h.g.eidNodup, h.g.eidLt, ?_, h.g.logLt, h.g.logNodup, h.g.logFresh,
               h.g.logOk, ?_, h.g.desNodup⟩, ⟨?_, h.f.desBound⟩⟩
      · intro a
        have ha0 := h.g.refEq a
        show Function.update w.artRef aid (w.artRef aid - 1) a
          = Function.update w.clientRef aid (w.clientRef aid - 1) a + liveCount w a + 0
        by_cases hv : a = aid
        · rw [hv, Function.update_same, Function.update_same]
          rw [hv] at ha0
          omega
        · rw [Function.update_noteq hv, Function.update_noteq hv]
          omega
      · intro a ha
        have hz := h.g.desZero a ha
        have hne : a ≠ aid := fun hc => by rw [hc] at hz; omega
        show Function.update w.artRef aid (w.artRef aid - 1) a = 0
        rw [Function.update_noteq hne]
        exact hz
      · intro a ha
        show a < w.nextArt
        by_cases hv : a = aid
        · rw [hv]
          exact h.f.artBound aid (by omega)
        · apply h.f.artBound a
          intro hz
          apply ha
          show Function.update w.artRef aid (w.artRef aid - 1) a = 0
          rw [Function.update_noteq hv]
          exact hz
  · rw [if_neg hpos]
    exact h

/-- Every client operation preserves the full invariant. -/
theorem inv_stepOp (w : World) (op : Op) (h : Inv w) : Inv (stepOp w op) := by
  cases op with
  | create => exact inv_create w h
  | add enc aid =>
    show Inv (if w.clientRef aid > 0 then (AddEntry w aid enc).2 else w)
    by_cases hpos : w.clientRef aid > 0
    · rw [if_pos hpos]
      cases enc with
      | none => exact h
      | some k =>
        have h0 := h.g.refEq aid
        have hart : w.artRef aid ≠ 0 := by omega
        have haid : aid < w.nextArt := h.f.artBound aid hart
        have hdes : aid ∉ w.destroyed := by
          intro hc
          exact hart (h.g.desZero aid hc)
        obtain ⟨hg2, hf2⟩ := ghost_AddEntry w aid k h.s h.g h.f haid hdes
        exact ⟨SInv_AddEntry w aid k h.s, hg2, hf2⟩
    · rw [if_neg hpos]
      exact h
  | look k => exact inv_lookup w k h
  | drop aid => exact inv_clientDrop w aid h

/-- The initial world satisfies the full invariant. -/
theorem inv_init (cap : Nat) : Inv (initWorld cap) := by
  refine ⟨⟨?_, ?_, ?_, ?_⟩, ⟨?_, ?_, ?_, ?_, ?_, ?_, ?_, ?_, ?_⟩, ⟨?_, ?_⟩⟩ <;>
    simp [initWorld, liveCount]

/-- Running any trace preserves the full invariant. -/
theorem inv_runOps (w : World) (ops : List Op) (h : Inv w) : Inv (runOps w ops) := by
  induction ops generalizing w with
  | nil => exact h
  | cons op rest ih => exact ih (stepOp w op) (inv_stepOp w op h)

/-! ## Client-held references are never taken away by the cache -/

/-- The client-held reference counter after a client drop. -/
theorem clientRef_clientDrop (w : World) (b : Nat) :
    (clientDrop w b).clientRef
      = if w.clientRef b > 0 then Function.update w.clientRef b (w.clientRef b - 1)
        else w.clientRef := by
  unfold clientDrop artRelease
  split_ifs <;> rfl

/-- Lookup never decreases any client-held reference count. -/
theorem clientRef_lookup_mono (w : World) (k a : Nat) (h : Inv w) :
    w.clientRef a ≤ (cacheLookup w k).2.clientRef a := by
  rcases hfind : w.entries.find? (fun x => x.resident && x.key == k) with _ | e
  · have hmiss : ∀ x ∈ w.entries, x.resident = true → x.key ≠ k := by
      intro x hx hres
      have hnot := List.find?_eq_none.mp hfind x hx
      simp only [Bool.and_eq_true, beq_iff_eq, not_and] at hnot
      exact hnot hres
    rw [cacheLookup_miss w k hmiss]
  · have hmem := List.mem_of_find?_eq_some hfind
    have hpred := List.find?_some hfind
    simp only [Bool.and_eq_true, beq_iff_eq] at hpred
    rw [← hpred.2, cacheLookup_hit w e h.s hmem]
    show w.clientRef a ≤ Function.update w.clientRef e.value (w.clientRef e.value + 1) a
    by_cases hv : a = e.value
    · rw [hv, Function.update_same]
      omega
    · rw [Function.update_noteq hv]

/-- No operation other than the client's own release of artifact `a`
decreases the client-held reference count of `a`. -/
theorem clientRef_step_mono (w : World) (op : Op) (a : Nat) (h : Inv w)
    (hop : op ≠ Op.drop a) :
    w.clientRef a ≤ (stepOp w op).clientRef a := by
  cases op with
  | create =>
    show w.clientRef a
      ≤ Function.update w.clientRef w.nextArt (w.clientRef w.nextArt + 1) a
    by_cases hv : a = w.nextArt
    · rw [hv, Function.update_same]
      omega
    · rw [Function.update_noteq hv]
  | add enc aid =>
    show w.clientRef a ≤ (if w.clientRef aid > 0 then (AddEntry w aid enc).2 else w).clientRef a
    by_cases hpos : w.clientRef aid > 0
    · rw [if_pos hpos]
      cases enc with
      | none => exact le_refl _
      | some k =>
        rw [(AddEntry_frame w aid k).2.2.2.1]
    · rw [if_neg hpos]
  | look k => exact clientRef_lookup_mono w k a h
  | drop b =>
    have hb : b ≠ a := by
      intro hc
      exact hop (by rw [hc])
    show w.clientRef a ≤ (clientDrop w b).clientRef a
    rw [clientRef_clientDrop]
    split_ifs
    · rw [Function.update_noteq (fun hc => hb hc.symm)]
    · exact le_refl _

/-- A client-held reference survives any trace that does not release it. -/
theorem clientRef_runOps_mono (w : World) (ops : List Op) (a : Nat) (h : Inv w)
    (hops : Op.drop a ∉ ops) :
    w.clientRef a ≤ (runOps w ops).clientRef a := by
  induction ops generalizing w with
  | nil => exact le_refl _
  | cons op rest ih =>
    have h1 := clientRef_step_mono w op a h (by
      intro hc
      exact hops (by rw [hc]; exact List.mem_cons_self _ _))
    have h2 := ih (stepOp w op) (inv_stepOp w op h)
      (fun hc => hops (List.mem_cons_of_mem _ hc))
    exact le_trans h1 h2

/-! ## Claim theorems -/

/-- C2: AddEntry returns a non-OK result if and only if the artifact's
EncodeOwnKey fails, and the failure surfaced is EncodingError; in that case
nothing happens to the cache or to the artifact's ownership count (the
whole state is unchanged: no AddRef, no Insert). Whenever EncodeOwnKey
succeeds, AddEntry returns success. -/
theorem claim_C2_addentry_error (w : World) (aid : Nat) (enc : Option Nat) :
    ((AddEntry w aid enc).1 ≠ Status.ok ↔ enc = none)
    ∧ (enc = none →
        (AddEntry w aid enc).1 = Status.encodingError ∧ (AddEntry w aid enc).2 = w) := by
  cases enc with
  | none =>
    refine ⟨?_, fun _ => ⟨rfl, rfl⟩⟩
    simp [AddEntry]
  | some k =>
    refine ⟨?_, fun hc => by cases hc⟩
    simp [AddEntry]

/-- C2 witness: on an encoding failure the result is EncodingError and the
state is untouched. -/
theorem claim_C2_witness :
    (AddEntry (initWorld 1) 0 none).1 = Status.encodingError
    ∧ (AddEntry (initWorld 1) 0 none).2 = initWorld 1 :=
  (claim_C2_addentry_error (initWorld 1) 0 none).2 rfl

/-- C3: Lookup of a key with no resident entry (in particular on a cache
into which nothing was ever inserted) returns the absent reference as a
normal result and has no effect on the cache state (entries, ownership
counters, destruction and deleter records, capacity, allocation counter);
only the hit/miss instrumentation records the event. -/
theorem claim_C3_miss_not_error (w : World) (k : Nat)
    (h : ∀ e ∈ w.entries, e.resident = true → e.key ≠ k) :
    (cacheLookup w k).1 = none
    ∧ (cacheLookup w k).2.entries = w.entries
    ∧ (cacheLookup w k).2.artRef = w.artRef
    ∧ (cacheLookup w k).2.clientRef = w.clientRef
    ∧ (cacheLookup w k).2.destroyed = w.destroyed
    ∧ (cacheLookup w k).2.deleterLog = w.deleterLog
    ∧ (cacheLookup w k).2.capacity = w.capacity
    ∧ (cacheLookup w k).2.nextId = w.nextId := by
  rw [cacheLookup_miss w k h]
  exact ⟨rfl, rfl, rfl, rfl, rfl, rfl, rfl, rfl⟩

/-- C3 witness: a lookup on the empty cache misses without error or side
effect. -/
theorem claim_C3_witness :
    (cacheLookup (initWorld 2) 7).1 = none
    ∧ (cacheLookup (initWorld 2) 7).2.entries = (initWorld 2).entries
    ∧ (cacheLookup (initWorld 2) 7).2.artRef = (initWorld 2).artRef
    ∧ (cacheLookup (initWorld 2) 7).2.clientRef = (initWorld 2).clientRef
    ∧ (cacheLookup (initWorld 2) 7).2.destroyed = (initWorld 2).destroyed
    ∧ (cacheLookup (initWorld 2) 7).2.deleterLog = (initWorld 2).deleterLog
    ∧ (cacheLookup (initWorld 2) 7).2.capacity = (initWorld 2).capacity
    ∧ (cacheLookup (initWorld 2) 7).2.nextId = (initWorld 2).nextId :=
  claim_C3_miss_not_error (initWorld 2) 7 (by simp [initWorld])

/-- C8: the hint argument of the engine Lookup affects only the hit/miss
instrumentation: for every state and key, two lookups differing only in the
hint return the same outcome and leave every cache-state component other
than the metrics identical. -/
theorem claim_C8_hint_only_instrumentation (w : World) (k : Nat) (h1 h2 : Bool) :
    (engineLookup w k h1).1 = (engineLookup w k h2).1
    ∧ (engineLookup w k h1).2.entries = (engineLookup w k h2).2.entries
    ∧ (engineLookup w k h1).2.artRef = (engineLookup w k h2).2.artRef
    ∧ (engineLookup w k h1).2.clientRef = (engineLookup w k h2).2.clientRef
    ∧ (engineLookup w k h1).2.destroyed = (engineLookup w k h2).2.destroyed
    ∧ (engineLookup w k h1).2.deleterLog = (engineLookup w k h2).2.deleterLog
    ∧ (engineLookup w k h1).2.capacity = (engineLookup w k h2).2.capacity
    ∧ (engineLookup w k h1).2.nextId = (engineLookup w k h2).2.nextId := by
  unfold engineLookup
  rcases hf : w.entries.find? (fun e => e.resident && e.key == k) with _ | e <;>
    rw [hf] <;> exact ⟨rfl, rfl, rfl, rfl, rfl, rfl, rfl, rfl⟩

/-- C10: ParsePrintType maps the --print_entries value totally: a value
whose leading token spells boolean false gives DONT_PRINT; a value whose
leading token spells boolean true, or the exact string "decoded", gives
PRINT_DECODED; the exact strings "pb" and "id" give PRINT_PB and PRINT_ID;
every other value hits LOG(FATAL), modelled as returning no value. -/
theorem claim_C10_parse_print_type (s : String) :
    (ParseLeadingBoolValue s true = false →
      ParsePrintType s = some PrintEntryType.DONT_PRINT)
    ∧ ((ParseLeadingBoolValue s false = true ∨ s = "decoded") →
      ParsePrintType s = some PrintEntryType.PRINT_DECODED)
    ∧ (s = "pb" → ParsePrintType s = some PrintEntryType.PRINT_PB)
    ∧ (s = "id" → ParsePrintType s = some PrintEntryType.PRINT_ID)
    ∧ (¬ ParseLeadingBoolValue s true = false →
       ¬ (ParseLeadingBoolValue s false = true ∨ s = "decoded") →
       s ≠ "pb" → s ≠ "id" → ParsePrintType s = none) := by
  refine ⟨?_, ?_, ?_, ?_, ?_⟩
  · intro h
    unfold ParsePrintType
    rw [if_pos h]
  · intro h
    have hnot : ¬ ParseLeadingBoolValue s true = false := by
      rcases h with h | h
      · unfold ParseLeadingBoolValue at h ⊢
        rcases hbt : boolTokenOf s with _ | b
        · rw [hbt] at h
          simp at h
        · rw [hbt] at h
          simp only [Option.getD_some] at h ⊢
          rw [h]
          simp
      · rw [h]
        intro hc
        cases hc
    unfold ParsePrintType
    rw [if_neg hnot, if_pos h]
  · intro h
    rw [h]
    rfl
  · intro h
    rw [h]
    rfl
  · intro h1 h2 h3 h4
    unfold ParsePrintType
    rw [if_neg h1, if_neg h2, if_neg h3, if_neg h4]

/-- C10 witness: concrete values of each branch of the print-type parsing. -/
theorem claim_C10_witness :
    ParsePrintType "false" = some PrintEntryType.DONT_PRINT
    ∧ ParsePrintType "decoded" = some PrintEntryType.PRINT_DECODED
    ∧ ParsePrintType "pb" = some PrintEntryType.PRINT_PB
    ∧ ParsePrintType "id" = some PrintEntryType.PRINT_ID
    ∧ ParsePrintType "garbage" = none :=
  ⟨(claim_C10_parse_print_type "false").1 (by decide),
   (claim_C10_parse_print_type "decoded").2.1 (Or.inr rfl),
   (claim_C10_parse_print_type "pb").2.2.1 rfl,
   (claim_C10_parse_print_type "id").2.2.2.1 rfl,
   (claim_C10_parse_print_type "garbage").2.2.2.2 (by decide) (by decide)
     (by decide) (by decide)⟩

/-- Lookup immediately after a successful AddEntry finds the just-inserted
artifact: the new entry is resident at the most-recently-used end and is
the unique entry with its key. -/
theorem lookup_after_add (w : World) (aid k : Nat) (h : Inv w) :
    (cacheLookup (AddEntry w aid (some k)).2 k).1 = some aid := by
  obtain ⟨-, hent⟩ := AddEntry_entries w aid k h.s
  have hs2 : SInv (AddEntry w aid (some k)).2 := SInv_AddEntry w aid k h.s
  have hmem : ({ eid := w.nextId, key := k, value := aid, charge := 1, refcount := 1, resident := true } : CacheEntry) ∈ (AddEntry w aid (some k)).2.entries := by
    rw [hent]
    simp
  have hl := cacheLookup_hit (AddEntry w aid (some k)).2
    { eid := w.nextId, key := k, value := aid, charge := 1, refcount := 1, resident := true }
    hs2 hmem
  exact congrArg Prod.fst hl

/-- C1: for an artifact that successfully encodes to key k, AddEntry
followed immediately by Lookup of k (no intervening insert or eviction)
succeeds and returns a non-null reference identifying that very artifact. -/
theorem claim_C1_round_trip (w : World) (aid k : Nat) (h : Inv w) :
    (AddEntry w aid (some k)).1 = Status.ok
    ∧ (cacheLookup (AddEntry w aid (some k)).2 k).1 = some aid :=
  ⟨(AddEntry_entries w aid k h.s).1, lookup_after_add w aid k h⟩

/-- C1 witness: round trip through an initially empty cache. -/
theorem claim_C1_witness :
    (AddEntry (initWorld 5) 0 (some 3)).1 = Status.ok
    ∧ (cacheLookup (AddEntry (initWorld 5) 0 (some 3)).2 3).1 = some 0 :=
  claim_C1_round_trip (initWorld 5) 0 3 (inv_init 5)

/-- C4 counterexample: re-adding the same artifact under the same key is a
successful AddEntry whose net effect on the artifact's ownership count is
0, not +1 — the overwrite eviction fires the old entry's deleter, which
releases the reference the cache already held. -/
theorem claim_C4_counterexample :
    (AddEntry (runOps (initWorld 10) [Op.create, Op.add (some 5) 0]) 0 (some 5)).1
      = Status.ok
    ∧ ¬ ((AddEntry (runOps (initWorld 10) [Op.create, Op.add (some 5) 0]) 0 (some 5)).2.artRef 0
        = (runOps (initWorld 10) [Op.create, Op.add (some 5) 0]).artRef 0 + 1) := by
  constructor
  · rfl
  · decide

/-- C4 (amended): on the success path AddEntry increments the artifact's
ownership count, inserts with charge 1 and the deleter that decrements it,
and releases the handle; provided no current entry stores this artifact
(so no eviction during this insert can release a reference to it), the net
effect on the artifact's count is exactly +1, the extra reference is the
cache's (client-held counts unchanged, exactly one entry stores the
artifact), and a deleter invocation decrements the stored artifact's count
by exactly one. -/
theorem claim_C4_amended_net_plus_one (w : World) (aid k : Nat) (h : Inv w)
    (hheld : w.clientRef aid > 0)
    (hfresh : ∀ e ∈ w.entries, e.value ≠ aid) :
    (AddEntry w aid (some k)).1 = Status.ok
    ∧ (AddEntry w aid (some k)).2.artRef aid = w.artRef aid + 1
    ∧ (AddEntry w aid (some k)).2.clientRef aid = w.clientRef aid
    ∧ liveCount (AddEntry w aid (some k)).2 aid = 1
    ∧ (∀ (v : World) (e : CacheEntry),
        (fireDeleter v e).artRef e.value = v.artRef e.value - 1) := by
  obtain ⟨hok, hent⟩ := AddEntry_entries w aid k h.s
  have h0 := h.g.refEq aid
  have hart : w.artRef aid ≠ 0 := by omega
  have haid : aid < w.nextArt := h.f.artBound aid hart
  have hdes : aid ∉ w.destroyed := fun hc => hart (h.g.desZero aid hc)
  obtain ⟨hg2, -⟩ := ghost_AddEntry w aid k h.s h.g h.f haid hdes
  have hcli : (AddEntry w aid (some k)).2.clientRef = w.clientRef :=
    (AddEntry_frame w aid k).2.2.2.1
  have hsub : ((w.entries.filter (fun e => e.key != k)).drop
      ((w.entries.filter (fun e => e.key != k)).length + 1 - w.capacity)).Sublist w.entries :=
    List.Sublist.trans (List.drop_sublist _ _) (List.filter_sublist _)
  have hlive0 : liveCount w aid = 0 := by
    simp only [liveCount]
    rw [List.length_eq_zero]
    apply List.filter_eq_nil_iff.mpr
    intro e he
    simpa using hfresh e he
  have hlive1 : liveCount (AddEntry w aid (some k)).2 aid = 1 := by
    simp only [liveCount]
    rw [hent, List.filter_append]
    have hA : ((w.entries.filter (fun e => e.key != k)).drop
        ((w.entries.filter (fun e => e.key != k)).length + 1 - w.capacity)).filter
          (fun e => e.value == aid) = [] := by
      apply List.filter_eq_nil_iff.mpr
      intro e he
      simpa using hfresh e (hsub.subset he)
    rw [hA]
    simp
  have h2 := hg2.refEq aid
  rw [hlive1] at h2
  rw [hcli] at h2
  refine ⟨hok, by omega, congrFun hcli aid, hlive1, ?_⟩
  intro v e
  show (artRelease v e.value).artRef e.value = v.artRef e.value - 1
  unfold artRelease
  by_cases h1 : v.artRef e.value = 1
  · rw [if_pos h1]
    show Function.update v.artRef e.value 0 e.value = v.artRef e.value - 1
    rw [Function.update_same, h1]
  · rw [if_neg h1]
    show Function.update v.artRef e.value (v.artRef e.value - 1) e.value
      = v.artRef e.value - 1
    rw [Function.update_same]

/-- C4 witness for the amended statement: first insertion of a fresh
artifact has net ownership effect +1, held by the cache. -/
theorem claim_C4_amended_witness :
    (AddEntry (runOps (initWorld 10) [Op.create]) 0 (some 5)).1 = Status.ok
    ∧ (AddEntry (runOps (initWorld 10) [Op.create]) 0 (some 5)).2.artRef 0
        = (runOps (initWorld 10) [Op.create]).artRef 0 + 1
    ∧ (AddEntry (runOps (initWorld 10) [Op.create]) 0 (some 5)).2.clientRef 0
        = (runOps (initWorld 10) [Op.create]).clientRef 0
    ∧ liveCount (AddEntry (runOps (initWorld 10) [Op.create]) 0 (some 5)).2 0 = 1
    ∧ (∀ (v : World) (e : CacheEntry),
        (fireDeleter v e).artRef e.value = v.artRef e.value - 1) :=
  claim_C4_amended_net_plus_one (runOps (initWorld 10) [Op.create]) 0 5
    (inv_runOps (initWorld 10) [Op.create] (inv_init 10)) (by decide) (by decide)

/-- A successful guarded AddEntry preserves the full invariant. -/
theorem inv_AddEntry (w : World) (aid k : Nat) (h : Inv w) (hheld : w.clientRef aid > 0) :
    Inv (AddEntry w aid (some k)).2 := by
  have h0 := h.g.refEq aid
  have hart : w.artRef aid ≠ 0 := by omega
  have haid : aid < w.nextArt := h.f.artBound aid hart
  have hdes : aid ∉ w.destroyed := fun hc => hart (h.g.desZero aid hc)
  obtain ⟨hg2, hf2⟩ := ghost_AddEntry w aid k h.s h.g h.f haid hdes
  exact ⟨SInv_AddEntry w aid k h.s, hg2, hf2⟩

/-- Two successive AddEntry calls with the same key: both succeed, Lookup
returns the second artifact, and the first artifact keeps every reference
its holder had and is not destroyed. -/
theorem addTwice_facts (w : World) (x y k : Nat) (h : Inv w)
    (hx : w.clientRef x > 0) (hy : w.clientRef y > 0) :
    (AddEntry w x (some k)).1 = Status.ok
    ∧ (AddEntry (AddEntry w x (some k)).2 y (some k)).1 = Status.ok
    ∧ (cacheLookup (AddEntry (AddEntry w x (some k)).2 y (some k)).2 k).1 = some y
    ∧ (AddEntry (AddEntry w x (some k)).2 y (some k)).2.clientRef x = w.clientRef x
    ∧ x ∉ (AddEntry (AddEntry w x (some k)).2 y (some k)).2.destroyed
    ∧ Inv (AddEntry (AddEntry w x (some k)).2 y (some k)).2 := by
  have h1 : Inv (AddEntry w x (some k)).2 := inv_AddEntry w x k h hx
  have hyB : (AddEntry w x (some k)).2.clientRef y > 0 := by
    rw [(AddEntry_frame w x k).2.2.2.1]
    exact hy
  have h2 : Inv (AddEntry (AddEntry w x (some k)).2 y (some k)).2 :=
    inv_AddEntry _ y k h1 hyB
  have hclix : (AddEntry (AddEntry w x (some k)).2 y (some k)).2.clientRef x
      = w.clientRef x := by
    rw [(AddEntry_frame _ y k).2.2.2.1, (AddEntry_frame w x k).2.2.2.1]
  refine ⟨(AddEntry_entries w x k h.s).1, (AddEntry_entries _ y k h1.s).1,
    lookup_after_add _ y k h1, hclix, ?_, h2⟩
  intro hc
  have hz := h2.g.desZero x hc
  have h0 := h2.g.refEq x
  rw [hclix] at h0
  omega

/-- C6: deleters run at most once per entry and only at the moment an
entry's refcount reaches 0 while it is not resident (every logged
invocation records resident = false and refcount reaching 0 from 1), and a
reference obtained by a client and not yet released keeps the artifact
alive across any further trace of inserts, lookups and other releases: the
client's count never drops and the artifact is never destroyed. -/
theorem claim_C6_deleter_once_pinning (cap : Nat) (ops ops2 : List Op) (a : Nat)
    (hheld : (runOps (initWorld cap) ops).clientRef a > 0)
    (hops2 : Op.drop a ∉ ops2) :
    ((runOps (runOps (initWorld cap) ops) ops2).deleterLog.map (fun p => p.1)).Nodup
    ∧ (∀ p ∈ (runOps (runOps (initWorld cap) ops) ops2).deleterLog,
        p.2.1 = false ∧ p.2.2 = 1)
    ∧ (runOps (runOps (initWorld cap) ops) ops2).clientRef a > 0
    ∧ a ∉ (runOps (runOps (initWorld cap) ops) ops2).destroyed := by
  have h1 : Inv (runOps (initWorld cap) ops) := inv_runOps _ _ (inv_init cap)
  have h2 : Inv (runOps (runOps (initWorld cap) ops) ops2) := inv_runOps _ _ h1
  have hmono := clientRef_runOps_mono (runOps (initWorld cap) ops) ops2 a h1 hops2
  refine ⟨h2.g.logNodup, h2.g.logOk, by omega, ?_⟩
  intro hc
  have hz := h2.g.desZero a hc
  have h0 := h2.g.refEq a
  omega

/-- C6 witness: a concrete trace where the held artifact survives eviction
pressure from later inserts. -/
theorem claim_C6_witness :
    ((runOps (runOps (initWorld 1) [Op.create, Op.add (some 1) 0, Op.look 1])
        [Op.create, Op.add (some 2) 1, Op.create, Op.add (some 3) 2]).deleterLog.map
          (fun p => p.1)).Nodup
    ∧ (∀ p ∈ (runOps (runOps (initWorld 1) [Op.create, Op.add (some 1) 0, Op.look 1])
        [Op.create, Op.add (some 2) 1, Op.create, Op.add (some 3) 2]).deleterLog,
        p.2.1 = false ∧ p.2.2 = 1)
    ∧ (runOps (runOps (initWorld 1) [Op.create, Op.add (some 1) 0, Op.look 1])
        [Op.create, Op.add (some 2) 1, Op.create, Op.add (some 3) 2]).clientRef 0 > 0
    ∧ 0 ∉ (runOps (runOps (initWorld 1) [Op.create, Op.add (some 1) 0, Op.look 1])
        [Op.create, Op.add (some 2) 1, Op.create, Op.add (some 3) 2]).destroyed :=
  claim_C6_deleter_once_pinning 1 [Op.create, Op.add (some 1) 0, Op.look 1]
    [Op.create, Op.add (some 2) 1, Op.create, Op.add (some 3) 2] 0
    (by decide) (by decide)

/-- C9: two AddEntry calls racing on the same key serialize through the
shard lock into one of the two orders; in either order both calls succeed,
a subsequent Lookup returns exactly the artifact whose Insert came second
(and never the loser), and the losing artifact remains valid for the
references its inserting thread already held: its client-held count is
untouched and it is not destroyed. -/
theorem claim_C9_concurrent_same_key (w : World) (a b k : Nat) (h : Inv w)
    (hab : a ≠ b) (ha : w.clientRef a > 0) (hb : w.clientRef b > 0) :
    ((AddEntry w a (some k)).1 = Status.ok
      ∧ (AddEntry (AddEntry w a (some k)).2 b (some k)).1 = Status.ok
      ∧ (cacheLookup (AddEntry (AddEntry w a (some k)).2 b (some k)).2 k).1 = some b
      ∧ (cacheLookup (AddEntry (AddEntry w a (some k)).2 b (some k)).2 k).1 ≠ some a
      ∧ (AddEntry (AddEntry w a (some k)).2 b (some k)).2.clientRef a = w.clientRef a
      ∧ a ∉ (AddEntry (AddEntry w a (some k)).2 b (some k)).2.destroyed)
    ∧ ((AddEntry w b (some k)).1 = Status.ok
      ∧ (AddEntry (AddEntry w b (some k)).2 a (some k)).1 = Status.ok
      ∧ (cacheLookup (AddEntry (AddEntry w b (some k)).2 a (some k)).2 k).1 = some a
      ∧ (cacheLookup (AddEntry (AddEntry w b (some k)).2 a (some k)).2 k).1 ≠ some b
      ∧ (AddEntry (AddEntry w b (some k)).2 a (some k)).2.clientRef b = w.clientRef b
      ∧ b ∉ (AddEntry (AddEntry w b (some k)).2 a (some k)).2.destroyed) := by
  obtain ⟨o1, o2, o3, o4, o5, -⟩ := addTwice_facts w a b k h ha hb
  obtain ⟨p1, p2, p3, p4, p5, -⟩ := addTwice_facts w b a k h hb ha
  refine ⟨⟨o1, o2, o3, ?_, o4, o5⟩, ⟨p1, p2, p3, ?_, p4, p5⟩⟩
  · rw [o3]
    intro hc
    cases hc
    exact hab rfl
  · rw [p3]
    intro hc
    cases hc
    exact hab rfl

/-- C9 witness: the race at a concrete state, both orders. -/
theorem claim_C9_witness :
    ((AddEntry (runOps (initWorld 4) [Op.create, Op.create]) 0 (some 9)).1 = Status.ok
      ∧ (AddEntry (AddEntry (runOps (initWorld 4) [Op.create, Op.create]) 0 (some 9)).2 1 (some 9)).1 = Status.ok
      ∧ (cacheLookup (AddEntry (AddEntry (runOps (initWorld 4) [Op.create, Op.create]) 0 (some 9)).2 1 (some 9)).2 9).1 = some 1
      ∧ (cacheLookup (AddEntry (AddEntry (runOps (initWorld 4) [Op.create, Op.create]) 0 (some 9)).2 1 (some 9)).2 9).1 ≠ some 0
      ∧ (AddEntry (AddEntry (runOps (initWorld 4) [Op.create, Op.create]) 0 (some 9)).2 1 (some 9)).2.clientRef 0 = (runOps (initWorld 4) [Op.create, Op.create]).clientRef 0
      ∧ 0 ∉ (AddEntry (AddEntry (runOps (initWorld 4) [Op.create, Op.create]) 0 (some 9)).2 1 (some 9)).2.destroyed)
    ∧ ((AddEntry (runOps (initWorld 4) [Op.create, Op.create]) 1 (some 9)).1 = Status.ok
      ∧ (AddEntry (AddEntry (runOps (initWorld 4) [Op.create, Op.create]) 1 (some 9)).2 0 (some 9)).1 = Status.ok
      ∧ (cacheLookup (AddEntry (AddEntry (runOps (initWorld 4) [Op.create, Op.create]) 1 (some 9)).2 0 (some 9)).2 9).1 = some 0
      ∧ (cacheLookup (AddEntry (AddEntry (runOps (initWorld 4) [Op.create, Op.create]) 1 (some 9)).2 0 (some 9)).2 9).1 ≠ some 1
      ∧ (AddEntry (AddEntry (runOps (initWorld 4) [Op.create, Op.create]) 1 (some 9)).2 0 (some 9)).2.clientRef 1 = (runOps (initWorld 4) [Op.create, Op.create]).clientRef 1
      ∧ 1 ∉ (AddEntry (AddEntry (runOps (initWorld 4) [Op.create, Op.create]) 1 (some 9)).2 0 (some 9)).2.destroyed) :=
  claim_C9_concurrent_same_key (runOps (initWorld 4) [Op.create, Op.create]) 0 1 9
    (inv_runOps (initWorld 4) [Op.create, Op.create] (inv_init 4))
    (by decide) (by decide) (by decide)

/-- If every entry at key kk stores artifact vv, one client operation that
does not insert at kk keeps it that way. -/
theorem keyval_step (v : World) (op : Op) (kk vv : Nat) (h : Inv v)
    (hP : ∀ e ∈ v.entries, e.key = kk → e.value = vv)
    (hop : ∀ x, op ≠ Op.add (some kk) x) :
    ∀ e ∈ (stepOp v op).entries, e.key = kk → e.value = vv := by
  cases op with
  | create => exact hP
  | drop aid =>
    show ∀ e ∈ (clientDrop v aid).entries, e.key = kk → e.value = vv
    have hent : (clientDrop v aid).entries = v.entries := by
      unfold clientDrop artRelease
      split_ifs <;> rfl
    rw [hent]
    exact hP
  | add enc aid =>
    show ∀ e ∈ (if v.clientRef aid > 0 then (AddEntry v aid enc).2 else v).entries,
      e.key = kk → e.value = vv
    by_cases hpos : v.clientRef aid > 0
    · rw [if_pos hpos]
      cases enc with
      | none => exact hP
      | some k2 =>
        have hk2 : k2 ≠ kk := by
          intro hc
          exact (hop aid) (by rw [hc])
        obtain ⟨-, hent⟩ := AddEntry_entries v aid k2 h.s
        rw [hent]
        intro e he hek
        rcases List.mem_append.mp he with he' | he'
        · have hsub : ((v.entries.filter (fun e => e.key != k2)).drop
              ((v.entries.filter (fun e => e.key != k2)).length + 1 - v.capacity)).Sublist
              v.entries :=
            List.Sublist.trans (List.drop_sublist _ _) (List.filter_sublist _)
          exact hP e (hsub.subset he') hek
        · simp only [List.mem_singleton] at he'
          rw [he'] at hek
          simp only at hek
          exact absurd hek hk2
    · rw [if_neg hpos]
      exact hP
  | look k2 =>
    rcases hfind : v.entries.find? (fun x => x.resident && x.key == k2) with _ | e
    · have hmiss : ∀ x ∈ v.entries, x.resident = true → x.key ≠ k2 := by
        intro x hx hres
        have hnot := List.find?_eq_none.mp hfind x hx
        simp only [Bool.and_eq_true, beq_iff_eq, not_and] at hnot
        exact hnot hres
      show ∀ e ∈ (cacheLookup v k2).2.entries, e.key = kk → e.value = vv
      rw [cacheLookup_miss v k2 hmiss]
      exact hP
    · have hmem := List.mem_of_find?_eq_some hfind
      have hpred := List.find?_some hfind
      simp only [Bool.and_eq_true, beq_iff_eq] at hpred
      show ∀ x ∈ (cacheLookup v k2).2.entries, x.key = kk → x.value = vv
      rw [← hpred.2, cacheLookup_hit v e h.s hmem]
      intro x hx hxk
      rcases List.mem_append.mp hx with hx' | hx'
      · exact hP x (List.mem_filter.mp hx').1 hxk
      · simp only [List.mem_singleton] at hx'
        rw [hx'] at hxk ⊢
        exact hP e hmem hxk

/-- If every entry at key kk stores artifact vv, any trace without inserts
at kk keeps it that way. -/
theorem keyval_runOps (v : World) (ops : List Op) (kk vv : Nat) (h : Inv v)
    (hP : ∀ e ∈ v.entries, e.key = kk → e.value = vv)
    (hops : ∀ x, Op.add (some kk) x ∉ ops) :
    ∀ e ∈ (runOps v ops).entries, e.key = kk → e.value = vv := by
  induction ops generalizing v with
  | nil => exact hP
  | cons op rest ih =>
    have h1 := keyval_step v op kk vv h hP (by
      intro x hc
      exact hops x (by rw [hc]; exact List.mem_cons_self _ _))
    exact ih (stepOp v op) (inv_stepOp v op h) h1
      (fun x hc => hops x (List.mem_cons_of_mem _ hc))

/-- If every entry at key kk stores artifact vv, a lookup of kk returns
either nothing or vv. -/
theorem lookup_val_of_keyval (v : World) (kk vv : Nat) (h : Inv v)
    (hP : ∀ e ∈ v.entries, e.key = kk → e.value = vv) :
    (cacheLookup v kk).1 = none ∨ (cacheLookup v kk).1 = some vv := by
  rcases hfind : v.entries.find? (fun x => x.resident && x.key == kk) with _ | e
  · left
    have hmiss : ∀ x ∈ v.entries, x.resident = true → x.key ≠ kk := by
      intro x hx hres
      have hnot := List.find?_eq_none.mp hfind x hx
      simp only [Bool.and_eq_true, beq_iff_eq, not_and] at hnot
      exact hnot hres
    rw [cacheLookup_miss v kk hmiss]
  · right
    have hmem := List.mem_of_find?_eq_some hfind
    have hpred := List.find?_some hfind
    simp only [Bool.and_eq_true, beq_iff_eq] at hpred
    have hv := hP e hmem hpred.2
    rw [← hpred.2, cacheLookup_hit v e h.s hmem]
    rw [hv]

/-- Dropping the last client reference of an artifact the cache no longer
stores destroys it. -/
theorem destroyed_clientDrop_one (v : World) (aid : Nat) (h1 : v.clientRef aid = 1)
    (h2 : v.artRef aid = 1) :
    (clientDrop v aid).destroyed = v.destroyed ++ [aid] := by
  unfold clientDrop artRelease
  split_ifs with hpos
  · rfl
  · exact absurd h1 (by omega)

/-- C7: overwriting key k (AddEntry of A, then AddEntry of B, same key):
both succeed; Lookup of k returns B; along any continuation that does not
insert at k again, Lookup of k never returns A; A is not leaked — after the
overwrite the cache holds no reference to A (its total count equals the
client-held count), and once its last holder releases it, A is destroyed. -/
theorem claim_C7_overwrite (w : World) (aidA aidB k : Nat) (h : Inv w)
    (hab : aidA ≠ aidB) (hA : w.clientRef aidA > 0) (hB : w.clientRef aidB > 0)
    (hfreshA : ∀ e ∈ w.entries, e.value ≠ aidA) :
    (AddEntry w aidA (some k)).1 = Status.ok
    ∧ (AddEntry (AddEntry w aidA (some k)).2 aidB (some k)).1 = Status.ok
    ∧ (cacheLookup (AddEntry (AddEntry w aidA (some k)).2 aidB (some k)).2 k).1 = some aidB
    ∧ (∀ ops, (∀ x, Op.add (some k) x ∉ ops) →
        (cacheLookup (runOps (AddEntry (AddEntry w aidA (some k)).2 aidB (some k)).2 ops) k).1
          ≠ some aidA)
    ∧ (AddEntry (AddEntry w aidA (some k)).2 aidB (some k)).2.artRef aidA
        = (AddEntry (AddEntry w aidA (some k)).2 aidB (some k)).2.clientRef aidA
    ∧ ((AddEntry (AddEntry w aidA (some k)).2 aidB (some k)).2.clientRef aidA = 1 →
        aidA ∈ (stepOp (AddEntry (AddEntry w aidA (some k)).2 aidB (some k)).2
          (Op.drop aidA)).destroyed) := by
  obtain ⟨o1, o2, o3, -, -, hInv2⟩ := addTwice_facts w aidA aidB k h hA hB
  have h1 : Inv (AddEntry w aidA (some k)).2 := inv_AddEntry w aidA k h hA
  obtain ⟨-, hent1⟩ := AddEntry_entries w aidA k h.s
  obtain ⟨-, hent2⟩ := AddEntry_entries (AddEntry w aidA (some k)).2 aidB k h1.s
  have hvalA : ∀ e ∈ (AddEntry (AddEntry w aidA (some k)).2 aidB (some k)).2.entries,
      e.value ≠ aidA := by
    intro e he
    rw [hent2] at he
    rcases List.mem_append.mp he with he' | he'
    · have hef := (List.drop_sublist _ _).subset he'
      have hef2 := List.mem_filter.mp hef
      have he1 := hef2.1
      rw [hent1] at he1
      rcases List.mem_append.mp he1 with he1' | he1'
      · exact hfreshA e
          ((List.Sublist.trans (List.drop_sublist _ _) (List.filter_sublist _)).subset he1')
      · simp only [List.mem_singleton] at he1'
        have hkk := hef2.2
        rw [he1'] at hkk
        simp at hkk
    · simp only [List.mem_singleton] at he'
      rw [he']
      intro hc
      exact hab hc.symm
  have hP2 : ∀ e ∈ (AddEntry (AddEntry w aidA (some k)).2 aidB (some k)).2.entries,
      e.key = k → e.value = aidB := by
    intro e he hek
    rw [hent2] at he
    rcases List.mem_append.mp he with he' | he'
    · have hef := (List.drop_sublist _ _).subset he'
      have hef2 := List.mem_filter.mp hef
      have hkk := hef2.2
      rw [hek] at hkk  -- hmm hkk : (e.key != k) = true with e.key = k
      simp at hkk
    · simp only [List.mem_singleton] at he'
      rw [he']
  have hlive2 : liveCount (AddEntry (AddEntry w aidA (some k)).2 aidB (some k)).2 aidA = 0 := by
    simp only [liveCount]
    rw [List.length_eq_zero]
    apply List.filter_eq_nil_iff.mpr
    intro e he
    simpa using hvalA e he
  have hart5 : (AddEntry (AddEntry w aidA (some k)).2 aidB (some k)).2.artRef aidA
      = (AddEntry (AddEntry w aidA (some k)).2 aidB (some k)).2.clientRef aidA := by
    have h0 := hInv2.g.refEq aidA
    rw [hlive2] at h0
    omega
  refine ⟨o1, o2, o3, ?_, hart5, ?_⟩
  · intro ops hops
    have hP3 := keyval_runOps _ ops k aidB hInv2 hP2 hops
    rcases lookup_val_of_keyval _ k aidB (inv_runOps _ ops hInv2) hP3 with hres | hres
    · rw [hres]
      intro hc
      cases hc
    · rw [hres]
      intro hc
      cases hc
      exact hab rfl
  · intro hcli1
    show aidA ∈ (clientDrop (AddEntry (AddEntry w aidA (some k)).2 aidB (some k)).2 aidA).destroyed
    rw [destroyed_clientDrop_one _ aidA hcli1 (by rw [hart5, hcli1])]
    simp

/-- C7 witness: overwrite at a concrete state, then drop the last holder
of A and watch it destroyed. -/
theorem claim_C7_witness :
    (AddEntry (runOps (initWorld 4) [Op.create, Op.create]) 0 (some 9)).1 = Status.ok
    ∧ (AddEntry (AddEntry (runOps (initWorld 4) [Op.create, Op.create]) 0 (some 9)).2 1 (some 9)).1 = Status.ok
    ∧ (cacheLookup (AddEntry (AddEntry (runOps (initWorld 4) [Op.create, Op.create]) 0 (some 9)).2 1 (some 9)).2 9).1 = some 1
    ∧ (∀ ops, (∀ x, Op.add (some 9) x ∉ ops) →
        (cacheLookup (runOps (AddEntry (AddEntry (runOps (initWorld 4) [Op.create, Op.create]) 0 (some 9)).2 1 (some 9)).2 ops) 9).1
          ≠ some 0)
    ∧ (AddEntry (AddEntry (runOps (initWorld 4) [Op.create, Op.create]) 0 (some 9)).2 1 (some 9)).2.artRef 0
        = (AddEntry (AddEntry (runOps (initWorld 4) [Op.create, Op.create]) 0 (some 9)).2 1 (some 9)).2.clientRef 0
    ∧ ((AddEntry (AddEntry (runOps (initWorld 4) [Op.create, Op.create]) 0 (some 9)).2 1 (some 9)).2.clientRef 0 = 1 →
        0 ∈ (stepOp (AddEntry (AddEntry (runOps (initWorld 4) [Op.create, Op.create]) 0 (some 9)).2 1 (some 9)).2
          (Op.drop 0)).destroyed) :=
  claim_C7_overwrite (runOps (initWorld 4) [Op.create, Op.create]) 0 1 9
    (inv_runOps (initWorld 4) [Op.create, Op.create] (inv_init 4))
    (by decide) (by decide) (by decide) (by decide)

/-- Fold AddEntry over a list of (key, artifact) pairs. -/
def addAll (w : World) (ps : List (Nat × Nat)) : World :=
  ps.foldl (fun v p => (AddEntry v p.2 (some p.1)).2) w

/-- Inserting fresh keys that fit within the capacity appends them in order
with no eviction. -/
theorem addAll_no_evict (ps : List (Nat × Nat)) : ∀ (w : World), SInv w →
    ((w.entries.map (fun e => e.key)) ++ ps.map (fun p => p.1)).Nodup →
    w.entries.length + ps.length ≤ w.capacity →
    (addAll w ps).entries.map (fun e => (e.key, e.value))
        = w.entries.map (fun e => (e.key, e.value)) ++ ps
    ∧ SInv (addAll w ps)
    ∧ (addAll w ps).capacity = w.capacity
    ∧ (addAll w ps).entries.length = w.entries.length + ps.length := by
  induction ps with
  | nil =>
    intro w hS hnd hfit
    exact ⟨by simp [addAll], hS, rfl, by simp [addAll]⟩
  | cons p rest ih =>
    intro w hS hnd hfit
    rw [List.map_cons] at hnd
    have hparts := List.nodup_append.mp hnd
    have hk : p.1 ∉ w.entries.map (fun e => e.key) := by
      intro hmem
      exact hparts.2.2 hmem (by simp)
    have hfilter : w.entries.filter (fun e => e.key != p.1) = w.entries := by
      apply List.filter_eq_self.mpr
      intro e he
      simp only [bne_iff_ne, ne_eq]
      intro hc
      exact hk (hc ▸ List.mem_map_of_mem _ he)
    have hz : w.entries.length + 1 - w.capacity = 0 := by
      simp only [List.length_cons] at hfit
      omega
    obtain ⟨-, hent⟩ := AddEntry_entries w p.2 p.1 hS
    rw [hfilter, hz, List.drop_zero] at hent
    have hS2 := SInv_AddEntry w p.2 p.1 hS
    have hcap2 := (AddEntry_frame w p.2 p.1).1
    have hlen2 : (AddEntry w p.2 (some p.1)).2.entries.length = w.entries.length + 1 := by
      rw [hent]
      simp
    have hnd2 : ((AddEntry w p.2 (some p.1)).2.entries.map (fun e => e.key)
        ++ rest.map (fun q => q.1)).Nodup := by
      rw [hent]
      simp only [List.map_append, List.map_cons, List.map_nil]
      rw [List.append_assoc]
      simpa using hnd
    have hfit2 : (AddEntry w p.2 (some p.1)).2.entries.length + rest.length
        ≤ (AddEntry w p.2 (some p.1)).2.capacity := by
      rw [hlen2, hcap2]
      simp only [List.length_cons] at hfit
      omega
    obtain ⟨ih1, ih2, ih3, ih4⟩ := ih (AddEntry w p.2 (some p.1)).2 hS2 hnd2 hfit2
    have hstep : addAll w (p :: rest) = addAll (AddEntry w p.2 (some p.1)).2 rest := rfl
    refine ⟨?_, by rw [hstep]; exact ih2, by rw [hstep, ih3, hcap2], ?_⟩
    · rw [hstep, ih1, hent]
      simp only [List.map_append, List.map_cons, List.map_nil]
      rw [List.append_assoc]
      simp
    · rw [hstep, ih4, hlen2]
      simp only [List.length_cons]
      omega

/-- C5 counterexample: with capacity 0 (the claim quantifies over every
capacity C), inserting C + 1 = 1 distinct keys leaves 1 resident entry,
not C = 0 — the freshly inserted entry is pinned by Insert's handle during
the capacity sweep, and after the facade releases it no sweep runs. -/
theorem claim_C5_counterexample :
    ((runOps (initWorld 0) [Op.create, Op.add (some 1) 0]).entries.filter
      (fun e => e.resident)).length ≠ 0 := by
  decide

/-- C5 (amended: capacity C must be positive): with capacity C ≥ 1 and no
pinned entries, inserting C+1 distinct keys into an empty cache leaves
exactly the last C of them resident, evicting exactly the
least-recently-used (first-inserted) one; and in the concrete capacity-2
scenario the promotion by Lookup makes the second insert survive the next
eviction: insert f1, f2, f3 evicts f1; after Lookup(f2), inserting f4
evicts f3 and keeps f2. -/
theorem claim_C5_amended_capacity_lru (C : Nat) (hC : 0 < C) (ps : List (Nat × Nat))
    (hlen : ps.length = C + 1)
    (hnd : (ps.map (fun p => p.1)).Nodup) :
    ((addAll (initWorld C) ps).entries.map (fun e => (e.key, e.value)) = ps.drop 1
      ∧ ((addAll (initWorld C) ps).entries.filter (fun e => e.resident)).length = C)
    ∧ ((cacheLookup (runOps (initWorld 2) [Op.create, Op.add (some 1) 0, Op.create, Op.add (some 2) 1, Op.create, Op.add (some 3) 2]) 1).1 = none
      ∧ (cacheLookup (runOps (initWorld 2) [Op.create, Op.add (some 1) 0, Op.create, Op.add (some 2) 1, Op.create, Op.add (some 3) 2]) 2).1 = some 1
      ∧ (cacheLookup (runOps (initWorld 2) [Op.create, Op.add (some 1) 0, Op.create, Op.add (some 2) 1, Op.create, Op.add (some 3) 2]) 3).1 = some 2
      ∧ (cacheLookup (runOps (initWorld 2) [Op.create, Op.add (some 1) 0, Op.create, Op.add (some 2) 1, Op.create, Op.add (some 3) 2, Op.look 2, Op.create, Op.add (some 4) 3]) 3).1 = none
      ∧ (cacheLookup (runOps (initWorld 2) [Op.create, Op.add (some 1) 0, Op.create, Op.add (some 2) 1, Op.create, Op.add (some 3) 2, Op.look 2, Op.create, Op.add (some 4) 3]) 2).1 = some 1
      ∧ (cacheLookup (runOps (initWorld 2) [Op.create, Op.add (some 1) 0, Op.create, Op.add (some 2) 1, Op.create, Op.add (some 3) 2, Op.look 2, Op.create, Op.add (some 4) 3]) 4).1 = some 3) := by
  constructor
  · have hfrontlen : (ps.take C).length = C := by
      rw [List.length_take, hlen]
      omega
    have hbacklen : (ps.drop C).length = 1 := by
      rw [List.length_drop, hlen]
      omega
    obtain ⟨q, hq⟩ := List.length_eq_one.mp hbacklen
    have hsplit : ps = ps.take C ++ [q] := by
      rw [← hq]
      exact (List.take_append_drop C ps).symm
    have hndkeys : ((ps.take C).map (fun p => p.1) ++ [q.1]).Nodup := by
      have hh := hnd
      rw [hsplit, List.map_append] at hh
      simpa using hh
    have hndparts := List.nodup_append.mp hndkeys
    obtain ⟨A1, A2, A3, A4⟩ := addAll_no_evict (ps.take C) (initWorld C) (inv_init C).s
      (by simpa using hndparts.1) (by rw [hfrontlen]; simp [initWorld])
    have hWkv : (addAll (initWorld C) (ps.take C)).entries.map (fun e => (e.key, e.value))
        = ps.take C := by
      simpa [initWorld] using A1
    have hWlen : (addAll (initWorld C) (ps.take C)).entries.length = C := by
      rw [A4, hfrontlen]
      simp [initWorld]
    have hWkeys : (addAll (initWorld C) (ps.take C)).entries.map (fun e => e.key)
        = (ps.take C).map (fun p => p.1) := by
      have hcg := congrArg (List.map Prod.fst) hWkv
      simpa [List.map_map, Function.comp] using hcg
    have hkfresh : q.1 ∉ (addAll (initWorld C) (ps.take C)).entries.map (fun e => e.key) := by
      rw [hWkeys]
      intro hmem
      exact hndparts.2.2 hmem (by simp)
    have hfilterW : (addAll (initWorld C) (ps.take C)).entries.filter (fun e => e.key != q.1)
        = (addAll (initWorld C) (ps.take C)).entries := by
      apply List.filter_eq_self.mpr
      intro e he
      simp only [bne_iff_ne, ne_eq]
      intro hc
      exact hkfresh (hc ▸ List.mem_map_of_mem _ he)
    obtain ⟨-, hent⟩ := AddEntry_entries (addAll (initWorld C) (ps.take C)) q.2 q.1 A2
    rw [hfilterW, hWlen, A3] at hent
    have hcapW : (initWorld C).capacity = C := rfl
    rw [hcapW] at hent
    have hdrop1 : C + 1 - C = 1 := by omega
    rw [hdrop1] at hent
    have hfin : addAll (initWorld C) ps = (AddEntry (addAll (initWorld C) (ps.take C)) q.2 (some q.1)).2 := by
      conv_lhs => rw [hsplit]
      simp only [addAll, List.foldl_append]
      rfl
    have hSfin : SInv (addAll (initWorld C) ps) := by
      rw [hfin]
      exact SInv_AddEntry _ q.2 q.1 A2
    have hkvfin : (addAll (initWorld C) ps).entries.map (fun e => (e.key, e.value))
        = ps.drop 1 := by
      rw [hfin, hent]
      simp only [List.map_append, List.map_cons, List.map_nil]
      have hmd : ((addAll (initWorld C) (ps.take C)).entries.drop 1).map (fun e => (e.key, e.value))
          = (ps.take C).drop 1 := by
        rw [List.map_drop, hWkv]
      rw [hmd]
      have hps1 : ps.drop 1 = (ps.take C).drop 1 ++ [q] := by
        conv_lhs => rw [hsplit]
        rw [List.drop_append_of_le_length (by omega)]
      rw [hps1]
    refine ⟨hkvfin, ?_⟩
    have hresfin : (addAll (initWorld C) ps).entries.filter (fun e => e.resident)
        = (addAll (initWorld C) ps).entries := by
      apply List.filter_eq_self.mpr
      intro e he
      simp [(hSfin.nf e he).2.1]
    rw [hresfin]
    have hlenfin := congrArg List.length hkvfin
    rw [List.length_map, List.length_drop, hlen] at hlenfin
    rw [hlenfin]
    omega
  · refine ⟨?_, ?_, ?_, ?_, ?_, ?_⟩ <;> decide

/-- C5 witness for the amended statement: capacity 3, four distinct keys. -/
theorem claim_C5_amended_witness :
    ((addAll (initWorld 3) [(1, 0), (2, 1), (3, 2), (4, 3)]).entries.map
        (fun e => (e.key, e.value)) = [(2, 1), (3, 2), (4, 3)]
      ∧ ((addAll (initWorld 3) [(1, 0), (2, 1), (3, 2), (4, 3)]).entries.filter
          (fun e => e.resident)).length = 3)
    ∧ ((cacheLookup (runOps (initWorld 2) [Op.create, Op.add (some 1) 0, Op.create, Op.add (some 2) 1, Op.create, Op.add (some 3) 2]) 1).1 = none
      ∧ (cacheLookup (runOps (initWorld 2) [Op.create, Op.add (some 1) 0, Op.create, Op.add (some 2) 1, Op.create, Op.add (some 3) 2]) 2).1 = some 1
      ∧ (cacheLookup (runOps (initWorld 2) [Op.create, Op.add (some 1) 0, Op.create, Op.add (some 2) 1, Op.create, Op.add (some 3) 2]) 3).1 = some 2
      ∧ (cacheLookup (runOps (initWorld 2) [Op.create, Op.add (some 1) 0, Op.create, Op.add (some 2) 1, Op.create, Op.add (some 3) 2, Op.look 2, Op.create, Op.add (some 4) 3]) 3).1 = none
      ∧ (cacheLookup (runOps (initWorld 2) [Op.create, Op.add (some 1) 0, Op.create, Op.add (some 2) 1, Op.create, Op.add (some 3) 2, Op.look 2, Op.create, Op.add (some 4) 3]) 2).1 = some 1
      ∧ (cacheLookup (runOps (initWorld 2) [Op.create, Op.add (some 1) 0, Op.create, Op.add (some 2) 1, Op.create, Op.add (some 3) 2, Op.look 2, Op.create, Op.add (some 4) 3]) 4).1 = some 3) :=
  claim_C5_amended_capacity_lru 3 (by decide) [(1, 0), (2, 1), (3, 2), (4, 3)]
    (by decide) (by decide)

end Kudu
